import Mathlib

/-!
Verification of the NakedSun core subsystems (storage engine, hook
dispatcher, auxiliary-data registry) against their natural-language
specification.  The Python sources are embedded shallowly:

* Python (2.x) `unicode` strings are modelled as `List Char`; the UTF-8
  encode/decode performed by the storage engine is the identity on this
  model (the spec's "undecodable byte sequences are preserved" clause
  concerns byte-level data that has no counterpart here).
* Python dictionaries are modelled as association lists with
  insertion-order iteration, first-match lookup, update-in-place
  semantics for existing keys, and append for fresh keys.
* Fallible operations return `Except`; recursive file readers/writers
  take an explicit fuel argument (they are executed only at sufficient
  fuel, and every theorem about them carries the fuel it needs).
* Mutation of `parent` pointers (needed for `StorageList.add`) is
  modelled with an explicit object store keyed by numeric identity.
-/

namespace NakedSun

/-! ## Python string primitives (model of `str` operations used by the code) -/

/-- Python string model: a list of characters. -/
abbrev PyStr := List Char

/-- Characters stripped by Python 2 `str.lstrip()` / `str.strip()`
(ASCII whitespace, as the storage files are read in binary mode). -/
def isPyWS (c : Char) : Bool :=
  c = ' ' || c = '\t' || c = '\n' || c = '\r' || c = '\x0b' || c = '\x0c'

/-- Model of `s.lstrip()`. -/
def pyLstrip (s : PyStr) : PyStr := s.dropWhile isPyWS

/-- Model of `s.strip()`. -/
def pyStrip (s : PyStr) : PyStr :=
  ((pyLstrip s).reverse.dropWhile isPyWS).reverse

/-- Model of `s.rstrip('\n')` — strips only trailing newline characters. -/
def pyRstripNL (s : PyStr) : PyStr :=
  (s.reverse.dropWhile (· = '\n')).reverse

/-- Model of `line.split(':', 1)`: `none` when the line has no colon
(the code guards with `':' in line` before splitting). -/
def splitColon : PyStr → Option (PyStr × PyStr)
  | [] => none
  | c :: rest =>
    if c = ':' then some ([], rest)
    else (splitColon rest).map (fun p => (c :: p.1, p.2))

/-- A run of `n` spaces (`' ' * n`). -/
def spacesL (n : Nat) : PyStr := List.replicate n ' '

/-- Indentation as computed by the reader: `len(line) - len(line.lstrip())`
on the raw line, which still carries its trailing `'\n'`.  Lines are stored
in the model without that terminator, so it is re-appended here; for an
all-whitespace line the terminator itself is stripped too, making the
computed indent exceed the stored line's length by one. -/
def pyIndent (line : PyStr) : Nat :=
  ((line ++ ['\n']).takeWhile isPyWS).length

/-- Model of `data.split('\n')`: `n` newlines yield `n + 1` pieces. -/
def splitNL : PyStr → List PyStr
  | [] => [[]]
  | c :: rest =>
    if c = '\n' then [] :: splitNL rest
    else
      match splitNL rest with
      | p :: ps => (c :: p) :: ps
      | [] => [[c]]

/-- Python `unicode` lexicographic comparison (`a <= b`), used to model
`sorted()` on string keys. -/
def strLe : PyStr → PyStr → Bool
  | [], _ => true
  | _ :: _, [] => false
  | a :: as_, b :: bs =>
    if a < b then true
    else if b < a then false
    else strLe as_ bs

/-- Insert into a `strLe`-sorted list, keeping earlier elements first on
ties (stability, matching Python's stable `sorted`). -/
def strInsert (x : PyStr) : List PyStr → List PyStr
  | [] => [x]
  | y :: ys => if strLe y x then y :: strInsert x ys else x :: y :: ys

/-- Model of Python `sorted(keys)` for string keys. -/
def strSort : List PyStr → List PyStr
  | [] => []
  | x :: xs => strInsert x (strSort xs)

/-- Model of Python `str.isdigit()` (ASCII digits; the engine's data is
ASCII at every place this is consulted). -/
def pyIsDigit (s : PyStr) : Bool := s ≠ [] && s.all Char.isDigit

/-- Model of `int(s)` for an all-digits string. -/
def digitsToNat (s : PyStr) : Nat :=
  s.foldl (fun acc c => 10 * acc + (c.toNat - '0'.toNat)) 0

/-! ## Storage engine data model (`nakedsun/storage/nakedmud.py`)

A `StorageSet`'s `_data` dictionary maps string keys to heterogeneous
Python values: unicode scalars, the bookkeeping read-order list of keys
and longest-key integer, raw Python lists of child dictionaries (backing
`StorageList`), child dictionaries (backing nested `StorageSet`), and —
through `storeInt`/`storeDouble`/`storeSet` — raw ints, floats, and
whole `StorageSet` objects. -/

mutual
inductive PyVal where
  /-- A `unicode` scalar as stored in `_data`. -/
  | vstr (s : PyStr)
  /-- A raw Python `int`, as stored by `storeInt` and by the reader's
  `LONGEST_KEY` bookkeeping. -/
  | vint (n : Int)
  /-- A raw Python `float`, as stored by `storeDouble`.  Floating-point
  arithmetic is out of scope; the payload records `float(val)` opaquely
  by its decimal text. -/
  | vfloat (text : PyStr)
  /-- A raw Python list of strings: the `READ_ORDER_KEY` bookkeeping value. -/
  | vkeys (ks : List PyStr)
  /-- A Python list of child dictionaries (the backing of a `StorageList`). -/
  | vlist (l : PyList)
  /-- A child dictionary (the backing of a nested `StorageSet`). -/
  | vdict (d : PyDict)
  /-- A whole `StorageSet` *object* (not its `_data`): this is what
  `storeSet` places into the dictionary (`self._data[key] = val`). -/
  | vsetObj (d : PyDict)
  deriving DecidableEq

inductive PyDict where
  | nil
  | cons (k : PyStr) (v : PyVal) (d : PyDict)
  deriving DecidableEq

inductive PyList where
  | lnil
  | lcons (d : PyDict) (l : PyList)
  deriving DecidableEq
end

/-- First-match dictionary lookup (`data[key]` / `key in data`). -/
def pyLookup : PyDict → PyStr → Option PyVal
  | .nil, _ => none
  | .cons k v d, key => if k = key then some v else pyLookup d key

/-- Model of `key in data`. -/
def pyContains (d : PyDict) (key : PyStr) : Bool := (pyLookup d key).isSome

/-- Model of `data[key] = v`: update in place when the key exists
(iteration order unchanged), append otherwise. -/
def pyInsert : PyDict → PyStr → PyVal → PyDict
  | .nil, key, v => .cons key v .nil
  | .cons k v0 d, key, v =>
    if k = key then .cons k v d else .cons k v0 (pyInsert d key v)

/-- Model of `del data[key]` (the key's presence is checked by callers). -/
def pyRemove : PyDict → PyStr → PyDict
  | .nil, _ => .nil
  | .cons k v d, key => if k = key then d else .cons k v (pyRemove d key)

/-- Dictionary iteration order (`for x in data`). -/
def pyKeys : PyDict → List PyStr
  | .nil => []
  | .cons k _ d => k :: pyKeys d

/-- Model of `list.append` on `PyList`. -/
def pyListAppend : PyList → PyDict → PyList
  | .lnil, d => .lcons d .lnil
  | .lcons x l, d => .lcons x (pyListAppend l d)

/-- Length of a `PyList`. -/
def pyListLength : PyList → Nat
  | .lnil => 0
  | .lcons _ l => 1 + pyListLength l

/-- Exceptions raised by the modelled storage operations. -/
inductive PyErr where
  | keyError
  | typeError
  | valueError
  | attributeError
  | notImplementedError
  | indexError
  /-- Fuel exhaustion of the model's bounded recursion — never reached
  at the fuel amounts used in the theorems below. -/
  | outOfFuel
  deriving DecidableEq

namespace Storage

/-- The reserved read-order sentinel key (`'\x00\x00READORDER\x00\x00'`). -/
def READ_ORDER_KEY : PyStr := "\x00\x00READORDER\x00\x00".toList

/-- The reserved longest-key-width sentinel key (`'\x00\x00LONGEST\x00\x00'`). -/
def LONGEST_KEY : PyStr := "\x00\x00LONGEST\x00\x00".toList

/-- Indent unit (`INDENT_RATE`). -/
def INDENT_RATE : Nat := 2

/-- Values accepted by the public `__setitem__` (`set[key] = val`). -/
inductive PyInVal where
  | inBool (b : Bool)
  | inInt (n : Int)
  /-- A float argument; `unicode(val)` is modelled by the float's decimal
  text, carried opaquely. -/
  | inFloat (text : PyStr)
  | inStr (s : PyStr)
  | inList (l : PyList)
  | inSet (d : PyDict)

/-- Model of `StorageSet.__setitem__`.  Reserved keys are rejected;
`StorageList`/`StorageSet` values are unwrapped to their backing
list/dict (the wrapper is re-parented, which the dictionary model does
not track); booleans become `'yes'`/`'no'`; ints and floats are
stringified; anything else must already be a string. -/
def setItem (data : PyDict) (key : PyStr) (val : PyInVal) : Except PyErr PyDict :=
  if key = READ_ORDER_KEY ∨ key = LONGEST_KEY then .error .keyError
  else
    let v : PyVal :=
      match val with
      | .inList l => .vlist l
      | .inSet d => .vdict d
      | .inBool b => .vstr (if b then "yes".toList else "no".toList)
      | .inInt n => .vstr (toString n).toList
      | .inFloat t => .vstr t
      | .inStr s => .vstr s
    .ok (pyInsert data key v)

/-- Results of the public `__getitem__`, after type inference. -/
inductive PyOutVal where
  | outBool (b : Bool)
  | outInt (n : Int)
  /-- An inferred float `mant / 10 ^ scale` (representation is not
  normalised; no claim compares float values). -/
  | outFloat (mant : Nat) (scale : Nat)
  | outStr (s : PyStr)
  /-- A `StorageList` wrapper around the raw list. -/
  | outList (l : PyList)
  /-- A `StorageSet` wrapper around the child dictionary. -/
  | outSet (d : PyDict)
  /-- A `StorageList` wrapper around a raw list of strings (possible
  only for bookkeeping values, which the public guard already rejects). -/
  | outKeys (ks : List PyStr)
  deriving DecidableEq

/-- Model of `float(s)` for a string that passed
`s.replace('.','').isdigit()`: with zero or one dot it parses; with two
or more dots Python's `float` raises `ValueError`. -/
def pyParseFloat (s : PyStr) : Except PyErr PyOutVal :=
  if (s.filter (· = '.')).length ≤ 1 then
    .ok (.outFloat (digitsToNat (s.filter (· ≠ '.')))
         ((s.dropWhile (· ≠ '.')).drop 1 |>.length))
  else .error .valueError

/-- Type inference performed by `__getitem__` on a raw stored value.
Raw ints/floats/set-objects reach the `val.isdigit()` test, which in
Python 2 raises `AttributeError` on a non-string. -/
def inferVal : PyVal → Except PyErr PyOutVal
  | .vlist l => .ok (.outList l)
  | .vdict d => .ok (.outSet d)
  | .vkeys ks => .ok (.outKeys ks)
  | .vstr s =>
    if s = "yes".toList then .ok (.outBool true)
    else if s = "no".toList then .ok (.outBool false)
    else if pyIsDigit s then .ok (.outInt (digitsToNat s))
    else if pyIsDigit (s.filter (· ≠ '.')) then pyParseFloat s
    else .ok (.outStr s)
  | .vint _ => .error .attributeError
  | .vfloat _ => .error .attributeError
  | .vsetObj _ => .error .attributeError

/-- Model of `StorageSet.__getitem__`. -/
def getItem (data : PyDict) (key : PyStr) : Except PyErr PyOutVal :=
  if key = READ_ORDER_KEY ∨ key = LONGEST_KEY then .error .keyError
  else
    match pyLookup data key with
    | none => .error .keyError
    | some v => inferVal v

/-- Model of `StorageSet.__delitem__`: reserved keys are rejected, the
key is removed from the recorded read order if one exists, then the
entry itself is deleted (`KeyError` when absent). -/
def delItem (data : PyDict) (key : PyStr) : Except PyErr PyDict :=
  if key = READ_ORDER_KEY ∨ key = LONGEST_KEY then .error .keyError
  else
    match pyLookup data READ_ORDER_KEY with
    | some (.vkeys ks) =>
      let data1 :=
        if key ∈ ks then pyInsert data READ_ORDER_KEY (.vkeys (ks.erase key))
        else data
      if pyContains data1 key then .ok (pyRemove data1 key) else .error .keyError
    | some _ => .error .typeError
    | none =>
      if pyContains data key then .ok (pyRemove data key) else .error .keyError

/-- Model of `StorageSet.__iter__` / `keys()`: every key except the two
sentinels, in dictionary order. -/
def pubKeys (data : PyDict) : List PyStr :=
  (pyKeys data).filter (fun k => ¬(k = READ_ORDER_KEY) && ¬(k = LONGEST_KEY))

/-- Model of `storeBool`: no reserved-key guard. -/
def storeBool (data : PyDict) (key : PyStr) (val : Bool) : PyDict :=
  pyInsert data key (.vstr (if val then "yes".toList else "no".toList))

/-- Model of `storeDouble` (`self._data[key] = float(val)`): stores a raw
float; no reserved-key guard. -/
def storeDouble (data : PyDict) (key : PyStr) (text : PyStr) : PyDict :=
  pyInsert data key (.vfloat text)

/-- Model of `storeInt` (`self._data[key] = int(val)`): stores a raw
int; no reserved-key guard. -/
def storeInt (data : PyDict) (key : PyStr) (val : Int) : PyDict :=
  pyInsert data key (.vint val)

/-- Model of `storeString` (`self._data[key] = unicode(val)`); no
reserved-key guard. -/
def storeString (data : PyDict) (key : PyStr) (val : PyStr) : PyDict :=
  pyInsert data key (.vstr val)

/-- Model of `storeList`: stores the backing list of a `StorageList`
(the argument is already typed, so the `isinstance` check passes); no
reserved-key guard. -/
def storeList (data : PyDict) (key : PyStr) (val : PyList) : PyDict :=
  pyInsert data key (.vlist val)

/-- Model of `storeSet`: note the source stores the `StorageSet`
*object* itself (`self._data[key] = val`), not `val._data` as
`__setitem__` does; no reserved-key guard. -/
def storeSet (data : PyDict) (key : PyStr) (val : PyDict) : PyDict :=
  pyInsert data key (.vsetObj val)

/-! ### Writing (`StorageSet.write` / `_write_set` / `_write_string`)

The writers and readers recurse through nested sets and lists; the model
gives them explicit fuel (first argument) and signals exhaustion with
`.outOfFuel`.  All theorems below either quantify over a successful run
or supply concretely sufficient fuel. -/

/-- The `longest` computation of `_write_set`: start from the *cached*
`LONGEST_KEY` entry when one exists, then fold `max` over the lengths of
the non-sentinel keys.  A cached value that is not an int would poison
Python's `max`/format with a type error downstream; the model reports it
as a type error here. -/
def computeLongest (d : PyDict) : Except PyErr Int :=
  match pyLookup d LONGEST_KEY with
  | none => .ok ((pubKeys d).foldl (fun acc k => max acc (k.length : Int)) 0)
  | some (.vint n) => .ok ((pubKeys d).foldl (fun acc k => max acc (k.length : Int)) n)
  | some _ => .error .typeError

/-- The `key_order` computation of `_write_set`: the recorded read order
(extended, in dictionary order, by current keys not yet recorded) when
one exists, else the sorted key list with the longest-key sentinel
removed.  A recorded order that is not a list of strings misbehaves in
Python (string membership/`append`); the model reports a type error.
The membership filter against the original recorded list coincides with
Python's check against the growing list because dictionary keys are
unique. -/
def computeOrder (d : PyDict) : Except PyErr (List PyStr) :=
  match pyLookup d READ_ORDER_KEY with
  | some (.vkeys ks) => .ok (ks ++ (pubKeys d).filter (fun k => ¬ ks.contains k))
  | some _ => .error .typeError
  | none => .ok ((strSort (pyKeys d)).erase LONGEST_KEY)

/-- Type marker chosen by `_write_set` for a stored value, following the
source's `isinstance` cascade: lists → `'='`, strings containing a
newline or carriage return → `'~'`, dicts → `'-'`, all else inline. -/
def valMarker : PyVal → Char
  | .vlist _ => '='
  | .vkeys _ => '='
  | .vstr s => if s.contains '\n' || s.contains '\r' then '~' else ' '
  | .vdict _ => '-'
  | _ => ' '

/-- Inline payload written after the marker (empty for the structured
markers).  `str(int)` matches `toString`; `str(float)` is the float's
opaque decimal text; `str` of a `StorageSet` object is an
address-bearing repr, modelled as an opaque constant (no claim examines
it). -/
def valInline : PyVal → PyStr
  | .vstr s => if s.contains '\n' || s.contains '\r' then [] else s
  | .vint n => (toString n).toList
  | .vfloat t => t
  | .vsetObj _ => "<StorageSet>".toList
  | _ => []

/-- Key field padded on the right to the longest-key width
(`"%-Ns" % key`).  Python renders a negative width through an extra
format flag; that unreachable corner is modelled as zero padding. -/
def padKey (longest : Int) (k : PyStr) : PyStr :=
  k ++ spacesL (longest - (k.length : Int)).toNat

/-- One entry line of `_write_set`:
`' '*indentation + key padded + ':' + marker + inline-data`. -/
def entryLine (ind : Nat) (longest : Int) (k : PyStr) (v : PyVal) : PyStr :=
  spacesL ind ++ padKey longest k ++ ':' :: valMarker v :: valInline v

/-- The set-terminator line `' '*indentation + '-'`. -/
def termLine (ind : Nat) : PyStr := spacesL ind ++ ['-']

/-- Lines produced by `_write_string`: the string split on `'\n'`, each
piece prefixed with the child indentation. -/
def writeStringLines (ind : Nat) (s : PyStr) : List PyStr :=
  (splitNL s).map (fun piece => spacesL ind ++ piece)

mutual
/-- Model of `_write_set`: compute the longest-key width and the key
order, emit one entry (plus children) per ordered key, then the
terminator line. -/
def writeSetF : Nat → Nat → PyDict → Except PyErr (List PyStr)
  | 0, _, _ => .error .outOfFuel
  | fuel + 1, ind, d => do
    let longest ← computeLongest d
    let order ← computeOrder d
    let body ← writeKeysF fuel ind longest d order
    pure (body ++ [termLine ind])
termination_by structural fuel _ _ => fuel

/-- The per-key loop of `_write_set` (`for key in key_order`): looking a
key up (`KeyError` if the recorded order names a missing key), writing
its entry line, then its child block. -/
def writeKeysF : Nat → Nat → Int → PyDict → List PyStr → Except PyErr (List PyStr)
  | 0, _, _, _, _ => .error .outOfFuel
  | _ + 1, _, _, _, [] => pure []
  | fuel + 1, ind, longest, d, k :: ks =>
    match pyLookup d k with
    | none => .error .keyError
    | some v => do
      let children ← writeChildF fuel ind v
      let rest ← writeKeysF fuel ind longest d ks
      pure (entryLine ind longest k v :: (children ++ rest))
termination_by structural fuel _ _ _ _ => fuel

/-- Child block following an entry line: list elements as consecutive
sets, nested dicts as a set, multi-line strings via `_write_string`.
Writing a raw list of strings (a read-order value named by a corrupted
order) would recurse into `_write_set` with a string in Python — modelled
as a type error. -/
def writeChildF : Nat → Nat → PyVal → Except PyErr (List PyStr)
  | 0, _, _ => .error .outOfFuel
  | fuel + 1, ind, v =>
    match v with
    | .vlist l => writeListF fuel (ind + INDENT_RATE) l
    | .vdict d => writeSetF fuel (ind + INDENT_RATE) d
    | .vstr s =>
      pure (if s.contains '\n' || s.contains '\r'
            then writeStringLines (ind + INDENT_RATE) s else [])
    | .vkeys _ => .error .typeError
    | _ => pure []
termination_by structural fuel _ _ => fuel

/-- The element loop for a list value (`for set in data[key]`). -/
def writeListF : Nat → Nat → PyList → Except PyErr (List PyStr)
  | 0, _, _ => .error .outOfFuel
  | _ + 1, _, .lnil => pure []
  | fuel + 1, ind, .lcons d l => do
    let a ← writeSetF fuel ind d
    let b ← writeListF fuel ind l
    pure (a ++ b)
termination_by structural fuel _ _ => fuel
end

/-! ### Reading (`StorageSet.load` / `_read_set` / `_read_list` / `_read_string`) -/

/-- Final trim of `_read_string`: drop one trailing newline when
present (`data[:-1]`), then decode (identity here). -/
def stringFinish (acc : PyStr) : PyStr :=
  if acc.getLast? = some '\n' then acc.dropLast else acc

/-- Model of `_read_string`: consume every line indented at least to the
child level, appending `readline()[indentation:]` (which keeps the
line's own terminator), and stop at the first shallower line or at end
of stream. -/
def readStringF : Nat → Nat → List PyStr → PyStr → Except PyErr (PyStr × List PyStr)
  | 0, _, _, _ => .error .outOfFuel
  | _ + 1, _, [], acc => pure (stringFinish acc, [])
  | fuel + 1, ind, line :: rest, acc =>
    if pyIndent line < ind then pure (stringFinish acc, line :: rest)
    else readStringF fuel ind rest (acc ++ (line ++ ['\n']).drop ind)

/-- Finalisation of `_read_set`: the read-order entry (seeded first, so
it sits at the front of the dictionary) receives the final recorded
order, and the measured longest width is appended last. -/
def readFinish (acc : PyDict) (ro : List PyStr) (longest : Nat) : PyDict :=
  pyInsert (pyInsert acc READ_ORDER_KEY (.vkeys ro)) LONGEST_KEY (.vint (longest : Int))

mutual
/-- The line loop of `_read_set`, carrying the accumulated dictionary,
recorded order, and measured longest width.  Stops (without consuming)
at end of stream or an indentation mismatch, and consumes a bare
set-terminator line.  Each entry line is split at its first colon; the
raw key's `lstrip`ped length feeds the longest-width bookkeeping and its
`strip`ped form becomes the key. -/
def readSetLoop : Nat → Nat → List PyStr → PyDict → List PyStr → Nat →
    Except PyErr (PyDict × List PyStr)
  | 0, _, _, _, _, _ => .error .outOfFuel
  | _ + 1, _, [], acc, ro, longest => pure (readFinish acc ro longest, [])
  | fuel + 1, ind, line :: rest, acc, ro, longest =>
    if pyIndent line ≠ ind then pure (readFinish acc ro longest, line :: rest)
    else
      let pl := pyRstripNL ((line ++ ['\n']).drop ind)
      if pl = ['-'] then pure (readFinish acc ro longest, rest)
      else
        match splitColon pl with
        | none => .error .valueError
        | some (keyRaw, after) =>
          let longest' := max longest (pyLstrip keyRaw).length
          let key := pyStrip keyRaw
          match after with
          | [] => .error .indexError
          | dtype :: dat =>
            if dtype = ' ' then
              readSetLoop fuel ind rest (pyInsert acc key (.vstr dat)) (ro ++ [key]) longest'
            else if dtype = '=' then do
              let (l, rest') ← readListF fuel (ind + INDENT_RATE) rest .lnil
              readSetLoop fuel ind rest' (pyInsert acc key (.vlist l)) (ro ++ [key]) longest'
            else if dtype = '~' then do
              let (s, rest') ← readStringF fuel (ind + INDENT_RATE) rest []
              readSetLoop fuel ind rest' (pyInsert acc key (.vstr s)) (ro ++ [key]) longest'
            else if dtype = '-' then do
              let (child, rest') ← readSetLoop fuel (ind + INDENT_RATE) rest
                  (pyInsert .nil READ_ORDER_KEY (.vkeys [])) [] 0
              readSetLoop fuel ind rest' (pyInsert acc key (.vdict child)) (ro ++ [key]) longest'
            else .error .notImplementedError
termination_by structural fuel _ _ _ _ _ => fuel

/-- Model of `_read_list`: read consecutive sets while the next line
sits exactly at the element indentation. -/
def readListF : Nat → Nat → List PyStr → PyList → Except PyErr (PyList × List PyStr)
  | 0, _, _, _ => .error .outOfFuel
  | _ + 1, _, [], acc => pure (acc, [])
  | fuel + 1, ind, line :: rest, acc =>
    if pyIndent line ≠ ind then pure (acc, line :: rest)
    else do
      let (d, rest') ← readSetLoop fuel ind (line :: rest)
          (pyInsert .nil READ_ORDER_KEY (.vkeys [])) [] 0
      readListF fuel ind rest' (pyListAppend acc d)
termination_by structural fuel _ _ _ => fuel
end

/-- Model of `_read_set` entry: seed the read-order placeholder (first
position in the dictionary), then run the line loop. -/
def readSetF (fuel ind : Nat) (stream : List PyStr) (init : PyDict) :
    Except PyErr (PyDict × List PyStr) :=
  readSetLoop fuel ind stream (pyInsert init READ_ORDER_KEY (.vkeys [])) [] 0

/-- Composition `load(write(S))` on the backing dictionary: write a set
at the top level and read the produced lines back into a fresh
dictionary. -/
def loadOfWrite (fuel : Nat) (d : PyDict) : Option PyDict :=
  match writeSetF fuel 0 d with
  | .ok ls =>
    match readSetF (ls.length + 1) 0 ls .nil with
    | .ok (r, _) => some r
    | .error _ => none
  | .error _ => none

/-! ### The loaded form of a freshly written set

A fresh set (never loaded, built through the public API) is written in
sorted key order; reading the output back yields the same keys and
values with the two bookkeeping entries added: the read order (sorted
keys) in front, the measured longest width at the back, and every
nested set transformed the same way. -/

/-- Longest non-sentinel key length of a dictionary. -/
def maxPubKeyLen (d : PyDict) : Nat :=
  (pubKeys d).foldl (fun acc k => max acc k.length) 0

/-- Dictionary append. -/
def appendD : PyDict → PyDict → PyDict
  | .nil, e => e
  | .cons k v d, e => .cons k v (appendD d e)

/-- Re-order a dictionary's entries by the given key list (keys without
a binding are skipped; none arise in use). -/
def reorderBy : List PyStr → PyDict → PyDict
  | [], _ => .nil
  | k :: rest, m =>
    match pyLookup m k with
    | some v => .cons k v (reorderBy rest m)
    | none => reorderBy rest m

/-- Wrap a (value-transformed) dictionary in the bookkeeping produced by
`_read_set`: read order in front, entries in sorted order, measured
longest width at the back. -/
def sentinelize (m : PyDict) : PyDict :=
  .cons READ_ORDER_KEY (.vkeys (strSort (pyKeys m)))
    (appendD (reorderBy (strSort (pyKeys m)) m)
      (.cons LONGEST_KEY (.vint ((maxPubKeyLen m : Nat) : Int)) .nil))

mutual
/-- Value transformation applied by a write→load round trip to a fresh
value: scalars survive unchanged, nested structures gain bookkeeping. -/
def loadVal : PyVal → PyVal
  | .vstr s => .vstr s
  | .vdict d => .vdict (sentinelize (mapValsLoad d))
  | .vlist l => .vlist (loadList l)
  | v => v

/-- Apply `loadVal` to every value of a dictionary, keeping order. -/
def mapValsLoad : PyDict → PyDict
  | .nil => .nil
  | .cons k v d => .cons k (loadVal v) (mapValsLoad d)

/-- Apply the round-trip transformation to every element of a list. -/
def loadList : PyList → PyList
  | .lnil => .lnil
  | .lcons d l => .lcons (sentinelize (mapValsLoad d)) (loadList l)
end

/-- The dictionary produced by loading the written form of a fresh set. -/
def loadify (d : PyDict) : PyDict := sentinelize (mapValsLoad d)

/-- The entries a round trip recreates for the given key order: each key
bound to the loaded form of its original value. -/
def entriesLoaded (d : PyDict) : List PyStr → PyDict
  | [] => .nil
  | k :: ks =>
    match pyLookup d k with
    | some v => .cons k (loadVal v) (entriesLoaded d ks)
    | none => entriesLoaded d ks

/-- Concatenation of `PyList`s. -/
def pyListConcat : PyList → PyList → PyList
  | .lnil, m => m
  | .lcons d l, m => .lcons d (pyListConcat l m)

/-- Join pieces with a newline after each piece (the shape accumulated
by `_read_string`, which appends `readline()[indentation:]` — content
plus terminator — per line). -/
def joinNL (ps : List PyStr) : PyStr :=
  ps.foldr (fun p acc => p ++ '\n' :: acc) []

/-! ### Well-formedness of a fresh set -/

/-- Keys that survive the text format unchanged: non-empty, no colon or
newline, no surrounding whitespace (the format strips and pads the key
field), and distinct from the two sentinels. -/
def wfKeyB (k : PyStr) : Bool :=
  !k.isEmpty && k.head?.all (fun c => !isPyWS c) && k.getLast?.all (fun c => !isPyWS c)
    && decide (':' ∉ k) && decide ('\n' ∉ k)
    && decide (¬ k = READ_ORDER_KEY) && decide (¬ k = LONGEST_KEY)

mutual
/-- Values a fresh set built through `__setitem__` can hold: string
scalars (booleans/ints/floats are stringified on the way in), nested
fresh dicts and lists. -/
def freshV : PyVal → Bool
  | .vstr _ => true
  | .vdict d => freshD d
  | .vlist l => freshL l
  | _ => false

/-- A fresh, well-keyed dictionary: well-formed distinct keys, fresh
values, no bookkeeping entries. -/
def freshD : PyDict → Bool
  | .nil => true
  | .cons k v d => wfKeyB k && ¬ pyContains d k && freshV v && freshD d

/-- All elements fresh. -/
def freshL : PyList → Bool
  | .lnil => true
  | .lcons d l => freshD d && freshL l
end

/-! ### Round-trip statements

The write→read round trip for fresh sets is proved by strong induction
on the writer's fuel; these three propositions are the induction's
statements at one fuel value.  Each says: whenever the writer succeeds
at this fuel on fresh input, the produced lines are non-empty and start
at the writer's indentation, and reading them back (with fuel exceeding
the line count, and an arbitrary trailing stream) reconstructs exactly
the loaded form of the input and leaves the trailing stream
unconsumed. -/

/-- Round-trip statement for the per-key loop at one writer fuel. -/
def RT_keys (wfuel : Nat) : Prop :=
  ∀ (ind : Nat) (longest : Int) (d : PyDict) (order : List PyStr) (ls : List PyStr),
    (∀ k ∈ order, wfKeyB k = true) →
    (∀ k ∈ order, ∃ v, pyLookup d k = some v ∧ freshV v = true) →
    (∀ k ∈ order, (k.length : Int) ≤ longest) →
    order.Nodup →
    writeKeysF wfuel ind longest d order = .ok ls →
    ((∀ l0 t, ls = l0 :: t → pyIndent l0 = ind) ∧
     ∀ (rfuel : Nat) (rest : List PyStr) (acc : PyDict) (ro : List PyStr) (accL : Nat),
       ls.length < rfuel →
       (∀ k ∈ order, pyContains acc k = false) →
       readSetLoop rfuel ind (ls ++ termLine ind :: rest) acc ro accL
         = .ok (readFinish (appendD acc (entriesLoaded d order)) (ro ++ order)
             (order.foldl (fun a _ => max a longest.toNat) accL), rest))

/-- Round-trip statement for a whole set at one writer fuel. -/
def RT_set (wfuel : Nat) : Prop :=
  ∀ (ind : Nat) (d : PyDict) (ls : List PyStr),
    freshD d = true →
    writeSetF wfuel ind d = .ok ls →
    (ls ≠ [] ∧ (∀ l0 t, ls = l0 :: t → pyIndent l0 = ind) ∧
     ∀ (rfuel : Nat) (rest : List PyStr), ls.length ≤ rfuel →
       readSetLoop rfuel ind (ls ++ rest)
           (pyInsert .nil READ_ORDER_KEY (.vkeys [])) [] 0
         = .ok (loadify d, rest))

/-- Round-trip statement for a list of sets at one writer fuel. -/
def RT_list (wfuel : Nat) : Prop :=
  ∀ (ind : Nat) (l : PyList) (ls : List PyStr),
    freshL l = true →
    writeListF wfuel ind l = .ok ls →
    ((∀ l0 t, ls = l0 :: t → pyIndent l0 = ind) ∧
     ∀ (rfuel : Nat) (rest : List PyStr) (acc : PyList),
       ls.length < rfuel →
       (rest = [] ∨ ∀ r0 t, rest = r0 :: t → pyIndent r0 ≠ ind) →
       readListF rfuel ind (ls ++ rest) acc
         = .ok (pyListConcat acc (loadList l), rest))

end Storage

/-! ## Generic association-table model of a Python dictionary with
arbitrary keys (used for the object store, the hook tables and the
auxiliary registry). -/

/-- First-match lookup. -/
def dlookup {κ α : Type} [DecidableEq κ] : List (κ × α) → κ → Option α
  | [], _ => none
  | (k, v) :: rest, key => if k = key then some v else dlookup rest key

/-- Update in place when the key exists, append otherwise. -/
def dset {κ α : Type} [DecidableEq κ] : List (κ × α) → κ → α → List (κ × α)
  | [], key, v => [(key, v)]
  | (k, v0) :: rest, key, v =>
    if k = key then (k, v) :: rest else (k, v0) :: dset rest key v

/-- Deletion. -/
def dremove {κ α : Type} [DecidableEq κ] : List (κ × α) → κ → List (κ × α)
  | [], _ => []
  | (k, v) :: rest, key => if k = key then rest else (k, v) :: dremove rest key

namespace Storage

/-! ### Parent identity model for `StorageList.add`

`add` compares and mutates object references (`self.parent is set`,
`set.parent = self`).  The model keeps an explicit store of object
identities: which identifiers denote `StorageSet`s, each object's parent
pointer, and each list's backing `_list` of element identities. -/

/-- The object store: `sets` lists the identifiers that are
`StorageSet` instances; `parent` maps an object to its parent object
(absence models `None`); `contents` maps a `StorageList` to the
identities it holds. -/
structure ObjStore where
  sets : List Nat
  parent : List (Nat × Nat)
  contents : List (Nat × List Nat)
  deriving DecidableEq

/-- Model of `StorageList.add(self, set)`: reject a non-set argument,
raise `ValueError` when `self.parent is set` (and only then), re-parent
the set only when it currently has no parent, then append it to the
backing list. -/
def listAdd (st : ObjStore) (self set : Nat) : Except PyErr ObjStore :=
  if ¬ st.sets.contains set then .error .typeError
  else if dlookup st.parent self = some set then .error .valueError
  else
    let st1 :=
      if dlookup st.parent set = none
      then { st with parent := dset st.parent set self } else st
    .ok { st1 with
          contents := dset st1.contents self ((dlookup st1.contents self).getD [] ++ [set]) }

/-- Follow the parent chain `n` steps. -/
def parentIterN (st : ObjStore) : Nat → Nat → Option Nat
  | 0, x => some x
  | n + 1, x => (dlookup st.parent x).bind (parentIterN st n)

end Storage

namespace Hooks

/-! ## Hook dispatcher model (`nakedsun/hooks.py`) -/

/-- A Python function as `hooks.add` sees it: an identity and the
parameter names reported by `inspect.getargspec`. -/
structure PyFunc where
  fid : Nat
  argNames : List PyStr
  deriving DecidableEq

/-- A function as stored in the hook tables: the original function's
identity, and whether `add` wrapped it as old-style (so that `run`
passes it the packed positional-argument tuple). -/
structure HookedFn where
  fid : Nat
  wrapped : Bool
  deriving DecidableEq

/-- The `old_style` decision of `add`: an explicit flag wins; otherwise
a function is old-style exactly when it declares exactly one parameter
*named `info`* (`len(args) == 1 and args[0] == 'info'`). -/
def addInferred (old_style : Option Bool) (f : PyFunc) : Bool :=
  match old_style with
  | some b => b
  | none => f.argNames.length = 1 && f.argNames.head? = some ("info".toList)

/-- One hook's `_hook_priorities[hook]` table: priority → bucket. -/
abbrev PrioTable := List (Int × List HookedFn)

/-- The module state: `_hook_priorities` and `_hook_table`. -/
structure HooksState where
  prios : List (PyStr × PrioTable)
  table : List (PyStr × List HookedFn)
  deriving DecidableEq

/-- Descending stable insertion, modelling
`sorted(keys, reverse=True)` on the priority keys. -/
def intInsertDesc (x : Int) : List Int → List Int
  | [] => [x]
  | y :: ys => if x ≤ y then y :: intInsertDesc x ys else x :: y :: ys

/-- Model of `sorted(keys, reverse=True)`. -/
def intSortDesc : List Int → List Int
  | [] => []
  | x :: xs => intInsertDesc x (intSortDesc xs)

/-- The run-order list built by `rebuild_hook_table`: walk the priority
keys from highest to lowest and extend with each bucket. -/
def buildRunList (pt : PrioTable) : List HookedFn :=
  (intSortDesc (pt.map (·.1))).foldl (fun acc p => acc ++ (dlookup pt p).getD []) []

/-- Model of `rebuild_hook_table`: a hook with no priority entry is
removed from the runnable table (after being reset), otherwise its run
list is rebuilt. -/
def rebuildHookTable (prios : List (PyStr × PrioTable))
    (table : List (PyStr × List HookedFn)) (hook : PyStr) :
    List (PyStr × List HookedFn) :=
  match dlookup prios hook with
  | none => dremove (dset table hook []) hook
  | some pt => dset table hook (buildRunList pt)

/-- Model of `hooks.add`: decide the calling convention, append the
(possibly wrapped) function to the hook's priority bucket, and rebuild
that hook's run list. -/
def hookAdd (st : HooksState) (hook : PyStr) (f : PyFunc)
    (old_style : Option Bool) (priority : Int) : HooksState :=
  let entry : HookedFn := { fid := f.fid, wrapped := addInferred old_style f }
  let pt := (dlookup st.prios hook).getD []
  let bucket := (dlookup pt priority).getD []
  let prios' := dset st.prios hook (dset pt priority (bucket ++ [entry]))
  { prios := prios', table := rebuildHookTable prios' st.table hook }

/-- The empty module state. -/
def initState : HooksState := ⟨[], []⟩

/-- Register a whole list of `(priority, function)` pairs on one hook,
in order (each with `old_style` unspecified). -/
def hookAddAll (st : HooksState) (hook : PyStr) : List (Int × PyFunc) → HooksState
  | [] => st
  | (p, f) :: rest => hookAddAll (hookAdd st hook f none p) hook rest

/-- A positional argument of `run`: either an ordinary value or a
`BuildInfoTuple` produced by `hooks.build_info`. -/
inductive PyArg where
  | atom (n : Nat)
  | packed (l : List PyArg)

/-- How a handler is invoked: with the expanded positional/keyword
arguments, or (for a wrapped old-style function) with the single packed
tuple of positional arguments (keyword arguments are dropped by the
wrapper). -/
inductive CallShape where
  | expanded (args : List PyArg) (kwargs : Bool)
  | packedCall (args : List PyArg)

/-- Behaviour of a handler when invoked: return normally, raise
`StopIteration`, raise `SystemExit`, or raise any other `Exception`. -/
inductive HRes where
  | hok
  | hstop
  | hexit
  | herr
  deriving DecidableEq

/-- Observable outcome of a `run` call. -/
inductive RunOutcome where
  | normal
  | exited
  | badArgs
  deriving DecidableEq

/-- The trace of a `run` call: the handlers invoked (with their call
shape, in order), the exception log entries (each records the hook name,
as the source's message does), and the outcome. -/
structure RunResult where
  calls : List (Nat × CallShape)
  logs : List PyStr
  outcome : RunOutcome

/-- The dispatch loop of `run`: invoke each handler; `StopIteration`
stops this call, `SystemExit` propagates, other exceptions are logged
and the loop continues. -/
def runLoop (hs : List HookedFn) (hook : PyStr) (args : List PyArg)
    (kwargs : Bool) (beh : Nat → HRes) : RunResult :=
  match hs with
  | [] => ⟨[], [], .normal⟩
  | h :: rest =>
    let shape := if h.wrapped then CallShape.packedCall args
                 else CallShape.expanded args kwargs
    match beh h.fid with
    | .hok =>
      let r := runLoop rest hook args kwargs beh
      ⟨(h.fid, shape) :: r.calls, r.logs, r.outcome⟩
    | .hstop => ⟨[(h.fid, shape)], [], .normal⟩
    | .hexit => ⟨[(h.fid, shape)], [], .exited⟩
    | .herr =>
      let r := runLoop rest hook args kwargs beh
      ⟨(h.fid, shape) :: r.calls, hook :: r.logs, r.outcome⟩

/-- Model of `hooks.run`: a name absent from the runnable table is a
no-op; a leading `BuildInfoTuple` must be the sole argument (else
`ValueError`) and is unpacked before dispatch. -/
def runHook (table : List (PyStr × List HookedFn)) (hook : PyStr)
    (args : List PyArg) (kwargs : Bool) (beh : Nat → HRes) : RunResult :=
  match dlookup table hook with
  | none => ⟨[], [], .normal⟩
  | some hs =>
    match args with
    | .packed l :: restArgs =>
      if restArgs.length != 0 || kwargs then ⟨[], [], .badArgs⟩
      else runLoop hs hook l kwargs beh
    | _ => runLoop hs hook args kwargs beh

/-- Whether the first positional argument is a `BuildInfoTuple`. -/
def leadingPacked : List PyArg → Bool
  | .packed _ :: _ => true
  | _ => false

/-- Keep the first occurrence of each priority, relative to an already
seen set (Python dictionary key order under repeated insertion). -/
def dedupFirstAux (seen : List Int) : List Int → List Int
  | [] => []
  | x :: xs =>
    if x ∈ seen then dedupFirstAux seen xs
    else x :: dedupFirstAux (x :: seen) xs

/-- First-occurrence deduplication. -/
def dedupFirst (l : List Int) : List Int := dedupFirstAux [] l

/-- Specification-side bucket of one priority: the functions registered
at that priority, in registration order (with `add`'s calling-convention
inference applied). -/
def bucketSpec (regs : List (Int × PyFunc)) (p : Int) : List HookedFn :=
  (regs.filter (fun r => r.1 = p)).map (fun r => ⟨r.2.fid, addInferred none r.2⟩)

/-- One registration's effect on a single hook's priority table (the
`_hook_priorities[hook][priority].append(function)` step of `add`,
creating the bucket on demand). -/
def bucketStep (pt : PrioTable) (priority : Int) (e : HookedFn) : PrioTable :=
  dset pt priority ((dlookup pt priority).getD [] ++ [e])

/-- The priority table accumulated over a registration list. -/
def ptFold (pt : PrioTable) : List (Int × PyFunc) → PrioTable
  | [] => pt
  | (p, f) :: rest => ptFold (bucketStep pt p ⟨f.fid, addInferred none f⟩) rest

/-! ### Specification-side formulation of the dispatch policy -/

/-- Take elements up to and including the first one satisfying `p`. -/
def takeThrough {α : Type} (p : α → Bool) : List α → List α
  | [] => []
  | x :: xs => if p x then [x] else x :: takeThrough p xs

/-- Whether a handler's behaviour halts the loop (stop signal or
process-exit signal). -/
def halts (beh : Nat → HRes) (h : HookedFn) : Bool :=
  beh h.fid = .hstop || beh h.fid = .hexit

/-- The handlers the policy says must be invoked: everything up to and
including the first handler that raises a halting signal. -/
def specInvoked (hs : List HookedFn) (beh : Nat → HRes) : List HookedFn :=
  takeThrough (halts beh) hs

/-- The dispatch policy's expected trace over a handler list. -/
def specResult (hs : List HookedFn) (hook : PyStr) (args : List PyArg)
    (kwargs : Bool) (beh : Nat → HRes) : RunResult :=
  { calls := (specInvoked hs beh).map (fun h =>
      (h.fid, if h.wrapped then CallShape.packedCall args
              else CallShape.expanded args kwargs))
    logs := ((specInvoked hs beh).filter (fun h => beh h.fid = .herr)).map
      (fun _ => hook)
    outcome :=
      match hs.find? (halts beh) with
      | some h => if beh h.fid = .hexit then .exited else .normal
      | none => .normal }

end Hooks

namespace Auxiliary

/-! ## Auxiliary-data registry model (`nakedsun/auxiliary.py`) -/

/-- An auxiliary data class as the registry sees it: an identity, the
three duck-typed capabilities `install` checks with `hasattr`, and
whether constructing/initialising an instance raises an `Exception`. -/
structure AuxClass where
  cid : Nat
  hasCopy : Bool
  hasCopyTo : Bool
  hasStore : Bool
  ctorFails : Bool
  deriving DecidableEq

/-- Model of `str.lower()` (tags in use are ASCII). -/
def pyLower (s : PyStr) : PyStr := s.map Char.toLower

/-- Split on commas (`installs_on.split(",")`). -/
def splitComma : PyStr → List PyStr
  | [] => [[]]
  | c :: rest =>
    if c = ',' then [] :: splitComma rest
    else
      match splitComma rest with
      | p :: ps => (c :: p) :: ps
      | [] => [[c]]

/-- The per-word normalisation of `install`: strip then lower-case. -/
def parseTags (csv : PyStr) : List PyStr :=
  (splitComma csv).map (fun w => pyLower (pyStrip w))

/-- The `_classes` table: owner-type tag → (auxiliary name → class). -/
abbrev Classes := List (PyStr × List (PyStr × AuxClass))

/-- Result of `install`: the updated class table plus one overwrite
warning per (name, tag) binding that already existed. -/
structure InstallResult where
  classes : Classes
  warnings : List (PyStr × PyStr)
  deriving DecidableEq

/-- Model of `auxiliary.install`: check the three capabilities
(`TypeError` otherwise; the name argument is a string by typing), then
for each comma-separated tag create the tag's table on demand, warn if
overwriting, and bind the class.  Nothing consults the owner-type
registration table. -/
def installWord (name : PyStr) (cls : AuxClass) (acc : InstallResult)
    (w : PyStr) : InstallResult :=
  let tbl := (dlookup acc.classes w).getD []
  let warn :=
    if (dlookup tbl name).isSome then acc.warnings ++ [(name, w)]
    else acc.warnings
  ⟨dset acc.classes w (dset tbl name cls), warn⟩

/-- The whole of `auxiliary.install` (documented on `installWord` above
for the per-word body). -/
def install (classes : Classes) (name : PyStr) (cls : AuxClass)
    (installs_on : PyStr) : Except PyErr InstallResult :=
  if ¬ (cls.hasCopy && cls.hasCopyTo && cls.hasStore) then .error .typeError
  else .ok ((parseTags installs_on).foldl (installWord name cls) ⟨classes, []⟩)

/-- The `_types` table built by `auxiliary.register`: owner class
identity → tag. -/
abbrev TypesReg := List (Nat × PyStr)

/-- Model of `auxiliary.register` (the decorator body):
`_types[cls] = name.strip().lower()`. -/
def register (types : TypesReg) (name : PyStr) (cid : Nat) : TypesReg :=
  dset types cid (pyLower (pyStrip name))

/-- Model of `_determine_class`: first registered owner class the thing
is an instance of; `isinst thing cls` models `isinstance`. -/
def determineClass (types : TypesReg) (thing : Nat) (isinst : Nat → Nat → Bool) :
    Option PyStr :=
  match types with
  | [] => none
  | (c, tag) :: rest =>
    if isinst thing c then some tag else determineClass rest thing isinst

/-- One initialised auxiliary instance: its class identity and the
serialized sub-tree it was initialised from (when one was present). -/
structure AuxInst where
  cid : Nat
  initData : Option PyVal
  deriving DecidableEq

/-- The sub-tree selection of `_auxiliary_init`:
`data[key] if data and key in data else None` (an empty dictionary is
falsy and has no keys, so the truthiness test collapses to lookup). -/
def auxKeyData (data : Option PyDict) (key : PyStr) : Option PyVal :=
  match data with
  | some d => pyLookup d key
  | none => none

/-- The loop of `AuxiliaryBase._auxiliary_init` over the classes
registered for the owner's tag: each class is initialised with its
sub-tree of `data` when present; a constructor that raises an
`Exception` is caught and logged (the log records the class name), and
the loop continues.  (`SystemExit`, not being an `Exception` subclass,
is outside the modelled behaviours.)  Returns the owner's auxiliary
table and the log. -/
def auxiliaryInit : List (PyStr × AuxClass) → Option PyDict →
    List (PyStr × AuxInst) × List PyStr
  | [], _ => ([], [])
  | (key, cls) :: rest, data =>
    let r := auxiliaryInit rest data
    if cls.ctorFails then (r.1, key :: r.2)
    else ((key, ⟨cls.cid, auxKeyData data key⟩) :: r.1, r.2)

end Auxiliary

/-! # Theorems

Shared helper lemmas first, then one theorem per claim (with witnesses
and counterexamples as required). -/

section DictLemmas

theorem pyLookup_pyInsert_self : ∀ (d : PyDict) (k : PyStr) (v : PyVal),
    pyLookup (pyInsert d k v) k = some v
  | .nil, k, v => by simp [pyInsert, pyLookup]
  | .cons k0 v0 d, k, v => by
    by_cases h : k0 = k <;>
      simp [pyInsert, pyLookup, h, pyLookup_pyInsert_self d k v]

theorem pyLookup_pyInsert_ne : ∀ (d : PyDict) (k k' : PyStr) (v : PyVal), k ≠ k' →
    pyLookup (pyInsert d k v) k' = pyLookup d k'
  | .nil, k, k', v, h => by simp [pyInsert, pyLookup, h]
  | .cons k0 v0 d, k, k', v, h => by
    by_cases h0 : k0 = k
    · subst h0; simp [pyInsert, pyLookup, h]
    · simp [pyInsert, pyLookup, h0, pyLookup_pyInsert_ne d k k' v h]

theorem dlookup_dset_self {κ α : Type} [DecidableEq κ] (t : List (κ × α)) (k : κ) (v : α) :
    dlookup (dset t k v) k = some v := by
  induction t with
  | nil => simp [dset, dlookup]
  | cons p t ih =>
    by_cases h : p.1 = k <;> simp [dset, dlookup, h, ih]

theorem dlookup_dset_ne {κ α : Type} [DecidableEq κ] (t : List (κ × α)) (k k' : κ) (v : α)
    (h : k ≠ k') : dlookup (dset t k v) k' = dlookup t k' := by
  induction t with
  | nil => simp [dset, dlookup, h]
  | cons p t ih =>
    by_cases h0 : p.1 = k <;> simp [dset, dlookup, h0, ih]
    · subst h0; simp [h, dlookup]

end DictLemmas

section C2

/-- Claim C2 (confirmed).  For every `StorageSet` — the operations act on
an arbitrary backing dictionary, hence on a set at any nesting depth —
and for each of the two sentinel keys, the generic `__setitem__`,
`__getitem__`, and `__delitem__` fail with the reserved-key
`KeyError`, and the sentinel keys never appear in the public key
iteration. -/
theorem c2_reserved_keys (d : PyDict) (key : PyStr) (v : Storage.PyInVal)
    (h : key = Storage.READ_ORDER_KEY ∨ key = Storage.LONGEST_KEY) :
    Storage.setItem d key v = .error .keyError
    ∧ Storage.getItem d key = .error .keyError
    ∧ Storage.delItem d key = .error .keyError
    ∧ key ∉ Storage.pubKeys d := by
  refine ⟨?_, ?_, ?_, ?_⟩
  · rw [Storage.setItem.eq_def, if_pos h]
  · rw [Storage.getItem.eq_def, if_pos h]
  · rw [Storage.delItem.eq_def, if_pos h]
  · intro hmem
    rw [Storage.pubKeys, List.mem_filter] at hmem
    rcases h with h | h <;> rw [h] at hmem <;> simp at hmem

/-- Witness for C2 at the read-order sentinel on a one-entry set. -/
theorem c2_reserved_keys_witness :
    (Storage.READ_ORDER_KEY = Storage.READ_ORDER_KEY
      ∨ Storage.READ_ORDER_KEY = Storage.LONGEST_KEY)
    ∧ (Storage.setItem (.cons "a".toList (.vstr "1".toList) .nil) Storage.READ_ORDER_KEY
         (.inInt 3) = .error .keyError
       ∧ Storage.getItem (.cons "a".toList (.vstr "1".toList) .nil) Storage.READ_ORDER_KEY
         = .error .keyError
       ∧ Storage.delItem (.cons "a".toList (.vstr "1".toList) .nil) Storage.READ_ORDER_KEY
         = .error .keyError
       ∧ Storage.READ_ORDER_KEY ∉ Storage.pubKeys (.cons "a".toList (.vstr "1".toList) .nil)) :=
  ⟨Or.inl rfl,
   c2_reserved_keys (.cons "a".toList (.vstr "1".toList) .nil)
     Storage.READ_ORDER_KEY (.inInt 3) (Or.inl rfl)⟩

end C2

section C10

/-- Claim C10 (confirmed).  The reserved-key protection lives only in
the generic item operations: each typed mutator `storeBool`, `storeInt`,
`storeDouble`, `storeString`, `storeList`, `storeSet` accepts a sentinel
key without raising (they are total functions on the model, with no key
guard) and overwrites whatever bookkeeping value was stored under it. -/
theorem c10_typed_mutators_bypass_guard (d : PyDict) (key : PyStr)
    (_h : key = Storage.READ_ORDER_KEY ∨ key = Storage.LONGEST_KEY)
    (b : Bool) (n : Int) (t s : PyStr) (l : PyList) (sd : PyDict) :
    pyLookup (Storage.storeBool d key b) key
      = some (.vstr (if b then "yes".toList else "no".toList))
    ∧ pyLookup (Storage.storeInt d key n) key = some (.vint n)
    ∧ pyLookup (Storage.storeDouble d key t) key = some (.vfloat t)
    ∧ pyLookup (Storage.storeString d key s) key = some (.vstr s)
    ∧ pyLookup (Storage.storeList d key l) key = some (.vlist l)
    ∧ pyLookup (Storage.storeSet d key sd) key = some (.vsetObj sd) := by
  refine ⟨?_, ?_, ?_, ?_, ?_, ?_⟩ <;>
    simp [Storage.storeBool, Storage.storeInt, Storage.storeDouble,
      Storage.storeString, Storage.storeList, Storage.storeSet,
      pyLookup_pyInsert_self]

/-- Witness for C10: overwrite the cached longest-key value of a loaded
set through `storeInt`. -/
theorem c10_typed_mutators_bypass_guard_witness :
    (Storage.LONGEST_KEY = Storage.READ_ORDER_KEY
      ∨ Storage.LONGEST_KEY = Storage.LONGEST_KEY)
    ∧ (pyLookup (Storage.storeBool (.cons Storage.LONGEST_KEY (.vint 7) .nil)
          Storage.LONGEST_KEY true) Storage.LONGEST_KEY
        = some (.vstr (if true then "yes".toList else "no".toList))
       ∧ pyLookup (Storage.storeInt (.cons Storage.LONGEST_KEY (.vint 7) .nil)
          Storage.LONGEST_KEY 5) Storage.LONGEST_KEY = some (.vint 5)
       ∧ pyLookup (Storage.storeDouble (.cons Storage.LONGEST_KEY (.vint 7) .nil)
          Storage.LONGEST_KEY "2.5".toList) Storage.LONGEST_KEY
        = some (.vfloat "2.5".toList)
       ∧ pyLookup (Storage.storeString (.cons Storage.LONGEST_KEY (.vint 7) .nil)
          Storage.LONGEST_KEY "x".toList) Storage.LONGEST_KEY = some (.vstr "x".toList)
       ∧ pyLookup (Storage.storeList (.cons Storage.LONGEST_KEY (.vint 7) .nil)
          Storage.LONGEST_KEY .lnil) Storage.LONGEST_KEY = some (.vlist .lnil)
       ∧ pyLookup (Storage.storeSet (.cons Storage.LONGEST_KEY (.vint 7) .nil)
          Storage.LONGEST_KEY .nil) Storage.LONGEST_KEY = some (.vsetObj .nil)) :=
  ⟨Or.inr rfl,
   c10_typed_mutators_bypass_guard (.cons Storage.LONGEST_KEY (.vint 7) .nil)
     Storage.LONGEST_KEY (Or.inr rfl) true 5 "2.5".toList "x".toList .lnil .nil⟩

end C10

section C5

theorem auxInit_logs_failure (data : Option PyDict) :
    ∀ (classes : List (PyStr × Auxiliary.AuxClass)) (k : PyStr) (c : Auxiliary.AuxClass),
      (k, c) ∈ classes → c.ctorFails = true →
      k ∈ (Auxiliary.auxiliaryInit classes data).2
  | [], _, _, h, _ => absurd h (List.not_mem_nil _)
  | (key, cls) :: rest, k, c, h, hf => by
    simp only [Auxiliary.auxiliaryInit]
    rcases List.mem_cons.mp h with he | hr
    · obtain ⟨hk, hc⟩ := Prod.mk.injEq .. ▸ he
      subst hk; subst hc
      simp [hf]
    · have ih := auxInit_logs_failure data rest k c hr hf
      by_cases hc : cls.ctorFails <;> simp [hc, ih]

theorem auxInit_keeps_successes (data : Option PyDict) :
    ∀ (classes : List (PyStr × Auxiliary.AuxClass)) (k : PyStr) (c : Auxiliary.AuxClass),
      (k, c) ∈ classes → c.ctorFails = false →
      (k, (⟨c.cid, Auxiliary.auxKeyData data k⟩ : Auxiliary.AuxInst))
        ∈ (Auxiliary.auxiliaryInit classes data).1
  | [], _, _, h, _ => absurd h (List.not_mem_nil _)
  | (key, cls) :: rest, k, c, h, hok => by
    simp only [Auxiliary.auxiliaryInit]
    rcases List.mem_cons.mp h with he | hr
    · obtain ⟨hk, hc⟩ := Prod.mk.injEq .. ▸ he
      subst hk; subst hc
      simp [hok]
    · have ih := auxInit_keeps_successes data rest k c hr hok
      by_cases hc : cls.ctorFails <;> simp [hc, ih]

/-- Claim C5 (confirmed).  During owner auxiliary initialization, a
registered class whose constructor/initialiser raises an `Exception` is
caught and logged, while every other registered class is still
instantiated (initialised with its sub-tree of the serialized data when
present).  The loop itself is a total function, so the owner's own
construction completes normally. -/
theorem c5_extension_isolation (classes : List (PyStr × Auxiliary.AuxClass))
    (data : Option PyDict) (k k' : PyStr) (c c' : Auxiliary.AuxClass)
    (hmem : (k, c) ∈ classes) (hfail : c.ctorFails = true)
    (hmem' : (k', c') ∈ classes) (hok : c'.ctorFails = false) :
    k ∈ (Auxiliary.auxiliaryInit classes data).2
    ∧ (k', (⟨c'.cid, Auxiliary.auxKeyData data k'⟩ : Auxiliary.AuxInst))
        ∈ (Auxiliary.auxiliaryInit classes data).1 :=
  ⟨auxInit_logs_failure data classes k c hmem hfail,
   auxInit_keeps_successes data classes k' c' hmem' hok⟩

/-- Witness for C5: three classes, the middle one failing; the failure
is logged and both siblings are instantiated. -/
theorem c5_extension_isolation_witness :
    (("bad".toList, (⟨1, true, true, true, true⟩ : Auxiliary.AuxClass))
        ∈ [("ok1".toList, (⟨0, true, true, true, false⟩ : Auxiliary.AuxClass)),
           ("bad".toList, ⟨1, true, true, true, true⟩),
           ("ok2".toList, ⟨2, true, true, true, false⟩)])
    ∧ (("bad".toList
        ∈ (Auxiliary.auxiliaryInit
            [("ok1".toList, ⟨0, true, true, true, false⟩),
             ("bad".toList, ⟨1, true, true, true, true⟩),
             ("ok2".toList, ⟨2, true, true, true, false⟩)] none).2)
       ∧ ("ok2".toList, (⟨2, none⟩ : Auxiliary.AuxInst))
          ∈ (Auxiliary.auxiliaryInit
            [("ok1".toList, ⟨0, true, true, true, false⟩),
             ("bad".toList, ⟨1, true, true, true, true⟩),
             ("ok2".toList, ⟨2, true, true, true, false⟩)] none).1) :=
  ⟨by decide,
   c5_extension_isolation
     [("ok1".toList, ⟨0, true, true, true, false⟩),
      ("bad".toList, ⟨1, true, true, true, true⟩),
      ("ok2".toList, ⟨2, true, true, true, false⟩)]
     none "bad".toList "ok2".toList ⟨1, true, true, true, true⟩
     ⟨2, true, true, true, false⟩ (by decide) rfl (by decide) rfl⟩

end C5

section C6

/-- Counterexample to claim C6 as stated.  With *no* owner-type tag
registered anywhere (`_determine_class` on an empty registration table
finds nothing), `install` nevertheless succeeds and binds the class
under the named tag: `install` creates the tag's table on demand and
never consults the registration table (its model does not even take it
as an argument). -/
theorem c6_counterexample :
    Auxiliary.install [] "x".toList ⟨0, true, true, true, false⟩ "widget".toList
      = .ok ⟨[("widget".toList, [("x".toList, ⟨0, true, true, true, false⟩)])], []⟩
    ∧ Auxiliary.determineClass [] 0 (fun _ _ => true) = none
    ∧ dlookup ([("widget".toList, [("x".toList,
          (⟨0, true, true, true, false⟩ : Auxiliary.AuxClass))])] : Auxiliary.Classes)
        "widget".toList
      = some [("x".toList, ⟨0, true, true, true, false⟩)] := by
  refine ⟨rfl, rfl, rfl⟩

theorem install_fold_binds (name : PyStr) (cls : Auxiliary.AuxClass) (w : PyStr) :
    ∀ (tags : List PyStr) (acc : Auxiliary.InstallResult),
      (w ∈ tags ∨ dlookup ((dlookup acc.classes w).getD []) name = some cls) →
      dlookup ((dlookup (tags.foldl (Auxiliary.installWord name cls) acc).classes w).getD [])
        name = some cls
  | [], acc, h => by
    rcases h with h | h
    · exact absurd h (List.not_mem_nil _)
    · simpa using h
  | t :: ts, acc, h => by
    rw [List.foldl_cons]
    by_cases hw : t = w
    · subst hw
      refine install_fold_binds name cls t ts _ (Or.inr ?_)
      simp [Auxiliary.installWord, dlookup_dset_self]
    · rcases h with h | h
      · rcases List.mem_cons.mp h with he | hts
        · exact absurd he.symm hw
        · exact install_fold_binds name cls w ts _ (Or.inl hts)
      · refine install_fold_binds name cls w ts _ (Or.inr ?_)
        simpa [Auxiliary.installWord, dlookup_dset_ne _ t w _ hw] using h

/-- Claim C6, amended (the code does not enforce the claimed invariant).
`install` binds the class under every tag parsed from its
comma-separated argument, whether or not the tag was ever registered:
the tag's class table is created on demand, and owner-type registration
matters only to `_determine_class` when an owner is later looked up. -/
theorem c6_amended (classes : Auxiliary.Classes) (name : PyStr)
    (cls : Auxiliary.AuxClass) (csv : PyStr) (w : PyStr)
    (hcap : (cls.hasCopy && cls.hasCopyTo && cls.hasStore) = true)
    (hw : w ∈ Auxiliary.parseTags csv) :
    ∃ r, Auxiliary.install classes name cls csv = .ok r
      ∧ dlookup ((dlookup r.classes w).getD []) name = some cls := by
  refine ⟨(Auxiliary.parseTags csv).foldl (Auxiliary.installWord name cls) ⟨classes, []⟩,
    ?_, install_fold_binds name cls w (Auxiliary.parseTags csv) ⟨classes, []⟩ (Or.inl hw)⟩
  simp [Auxiliary.install, hcap]

/-- Witness for C6's amended claim: installing on `"widget, gadget"`
binds under `"gadget"`. -/
theorem c6_amended_witness :
    ((true && true && true) = true
     ∧ "gadget".toList ∈ Auxiliary.parseTags "widget, gadget".toList)
    ∧ ∃ r, Auxiliary.install [] "x".toList ⟨3, true, true, true, false⟩
          "widget, gadget".toList = .ok r
        ∧ dlookup ((dlookup r.classes "gadget".toList).getD []) "x".toList
          = some ⟨3, true, true, true, false⟩ :=
  ⟨⟨rfl, by decide⟩,
   c6_amended [] "x".toList ⟨3, true, true, true, false⟩ "widget, gadget".toList
     "gadget".toList rfl (by decide)⟩

end C6

section C9

/-- Counterexample to claim C9 as stated, in both halves.

First: the cycle guard only checks the list's *immediate* parent.  In a
store where list `10`'s parent chain is `10 → 1 → 2 → 3` (alternating
sets and lists, with `3` a set with no parent yet), `add`ing set `3` to
list `10` succeeds — `3` is an ancestor of `10`, two levels up — and
re-parents `3` to `10`, closing a parent cycle: following parent
pointers four steps from `10` returns to `10`.

Second: a successful `add` does *not* re-parent a set that already has
a parent: adding set `5` (parent `6`) to list `7` succeeds, yet `5`'s
parent remains `6`, not `7`. -/
theorem c9_counterexample :
    Storage.listAdd ⟨[1, 3], [(10, 1), (1, 2), (2, 3)], []⟩ 10 3
      = .ok ⟨[1, 3], [(10, 1), (1, 2), (2, 3), (3, 10)], [(10, [3])]⟩
    ∧ Storage.parentIterN ⟨[1, 3], [(10, 1), (1, 2), (2, 3), (3, 10)], [(10, [3])]⟩ 4 10
      = some 10
    ∧ Storage.listAdd ⟨[5], [(5, 6)], []⟩ 7 5 = .ok ⟨[5], [(5, 6)], [(7, [5])]⟩
    ∧ dlookup ([(5, 6)] : List (Nat × Nat)) 5 = some 6
    ∧ (some 6 : Option Nat) ≠ some 7 :=
  ⟨rfl, rfl, rfl, rfl, by decide⟩

/-- Claim C9, amended.  `StorageList.add` fails (with `ValueError`)
exactly when the set is the list's *immediate* parent — deeper ancestors
are not checked, so parent cycles remain possible — and on success it
appends the set and re-parents it *only if the set had no parent yet*;
a set with an existing parent is appended without re-parenting. -/
theorem c9_amended (st : Storage.ObjStore) (self s : Nat) (p : Nat)
    (hset : st.sets.contains s = true) :
    (dlookup st.parent self = some s → Storage.listAdd st self s = .error .valueError)
    ∧ (dlookup st.parent self ≠ some s →
        ∃ st', Storage.listAdd st self s = .ok st'
          ∧ (dlookup st.parent s = none → dlookup st'.parent s = some self)
          ∧ (dlookup st.parent s = some p → dlookup st'.parent s = some p)
          ∧ dlookup st'.contents self
            = some ((dlookup st.contents self).getD [] ++ [s])) := by
  have hmem : s ∈ st.sets := by simpa using hset
  constructor
  · intro h
    simp [Storage.listAdd, hmem, h]
  · intro h
    by_cases hp : dlookup st.parent s = none
    · refine ⟨⟨st.sets, dset st.parent s self,
        dset st.contents self ((dlookup st.contents self).getD [] ++ [s])⟩, ?_, ?_, ?_, ?_⟩
      · simp [Storage.listAdd, hmem, h, hp]
      · intro _; exact dlookup_dset_self st.parent s self
      · intro hc; rw [hp] at hc; cases hc
      · exact dlookup_dset_self st.contents self _
    · rcases Option.ne_none_iff_exists'.mp hp with ⟨q, hq⟩
      refine ⟨⟨st.sets, st.parent,
        dset st.contents self ((dlookup st.contents self).getD [] ++ [s])⟩, ?_, ?_, ?_, ?_⟩
      · simp [Storage.listAdd, hmem, h, hq]
      · intro hc; rw [hq] at hc; cases hc
      · intro hc; simpa using hc
      · exact dlookup_dset_self st.contents self _

/-- Witness for C9's amended claim on a set that already has a parent. -/
theorem c9_amended_witness :
    ((([5] : List Nat).contains 5) = true
     ∧ dlookup ([(5, 6)] : List (Nat × Nat)) 7 ≠ some 5)
    ∧ ∃ st', Storage.listAdd ⟨[5], [(5, 6)], []⟩ 7 5 = .ok st'
        ∧ (dlookup ([(5, 6)] : List (Nat × Nat)) 5 = none →
            dlookup st'.parent 5 = some 7)
        ∧ (dlookup ([(5, 6)] : List (Nat × Nat)) 5 = some 6 →
            dlookup st'.parent 5 = some 6)
        ∧ dlookup st'.contents 7
          = some ((dlookup ([] : List (Nat × List Nat)) 7).getD [] ++ [5]) :=
  ⟨⟨rfl, by decide⟩,
   (c9_amended ⟨[5], [(5, 6)], []⟩ 7 5 6 rfl).2 (by decide)⟩

end C9

section C7

theorem addInferred_none_iff (f : Hooks.PyFunc) :
    Hooks.addInferred none f = true ↔ f.argNames = ["info".toList] := by
  simp only [Hooks.addInferred]
  cases hn : f.argNames with
  | nil => simp
  | cons a t =>
    cases t with
    | nil => simp [List.head?]
    | cons b t2 => simp [List.length]

/-- Counterexample to claim C7 as stated: a handler declaring exactly
one parameter, named `sock` rather than `info`, is *not* inferred to be
old-style when registered with the flag unspecified, and `run` invokes
it with the expanded arguments, not a packed value.  The inference in
`add` requires the sole parameter to be named `info`
(`len(args) == 1 and args[0] == 'info'`). -/
theorem c7_counterexample :
    Hooks.addInferred none ⟨0, ["sock".toList]⟩ = false
    ∧ ([("sock".toList : PyStr)] : List PyStr).length = 1
    ∧ (Hooks.runHook
        (Hooks.hookAdd Hooks.initState "h".toList ⟨0, ["sock".toList]⟩ none 0).table
        "h".toList [.atom 7] false (fun _ => .hok)).calls
      = [(0, .expanded [.atom 7] false)] :=
  ⟨rfl, rfl, rfl⟩

/-- Claim C7, amended.  With the old-style flag unspecified, a handler
is inferred to be old-style exactly when it declares exactly one
parameter *named `info`*; such a handler is invoked by `run` with the
single packed positional-argument value, while every other handler is
invoked with the expanded positional/keyword arguments. -/
theorem c7_amended (f : Hooks.PyFunc) (hook : PyStr) (priority : Int)
    (args : List Hooks.PyArg) (kwargs : Bool) (beh : Nat → Hooks.HRes)
    (hargs : Hooks.leadingPacked args = false) :
    (Hooks.addInferred none f = true ↔ f.argNames = ["info".toList])
    ∧ (Hooks.runHook (Hooks.hookAdd Hooks.initState hook f none priority).table hook
        args kwargs beh).calls
      = [(f.fid, if f.argNames = ["info".toList]
                 then Hooks.CallShape.packedCall args
                 else Hooks.CallShape.expanded args kwargs)] := by
  refine ⟨addInferred_none_iff f, ?_⟩
  have htable : (Hooks.hookAdd Hooks.initState hook f none priority).table
      = [(hook, [⟨f.fid, Hooks.addInferred none f⟩])] := by
    simp [Hooks.hookAdd, Hooks.initState, Hooks.rebuildHookTable, dset, dlookup,
      Hooks.buildRunList, Hooks.intSortDesc, Hooks.intInsertDesc]
  rw [htable]
  have hwrap : Hooks.addInferred none f = decide (f.argNames = ["info".toList]) := by
    by_cases hn : f.argNames = ["info".toList]
    · simp [hn, (addInferred_none_iff f).mpr hn]
    · have hd : decide (f.argNames = ["info".toList]) = false := decide_eq_false hn
      rw [hd]
      cases h : Hooks.addInferred none f with
      | false => rfl
      | true => exact absurd ((addInferred_none_iff f).mp h) hn
  have hrun : ∀ hs : List Hooks.HookedFn,
      Hooks.runHook [(hook, hs)] hook args kwargs beh
        = Hooks.runLoop hs hook args kwargs beh := by
    intro hs
    rw [Hooks.runHook]
    simp only [dlookup, if_pos rfl]
    cases args with
    | nil => rfl
    | cons a rest =>
      cases a with
      | atom n => rfl
      | packed l => simp [Hooks.leadingPacked] at hargs
  rw [hrun]
  cases hb : beh f.fid <;> simp [Hooks.runLoop, hb, hwrap]

/-- Witness for C7's amended claim with a one-parameter handler named
`info`: it is wrapped and receives the packed tuple. -/
theorem c7_amended_witness :
    Hooks.leadingPacked [Hooks.PyArg.atom 1, .atom 2] = false
    ∧ ((Hooks.addInferred none ⟨4, ["info".toList]⟩ = true
        ↔ (⟨4, ["info".toList]⟩ : Hooks.PyFunc).argNames = ["info".toList])
       ∧ (Hooks.runHook
            (Hooks.hookAdd Hooks.initState "h".toList ⟨4, ["info".toList]⟩ none 0).table
            "h".toList [Hooks.PyArg.atom 1, .atom 2] false (fun _ => .hok)).calls
         = [(4, if (⟨4, ["info".toList]⟩ : Hooks.PyFunc).argNames = ["info".toList]
                then Hooks.CallShape.packedCall [Hooks.PyArg.atom 1, .atom 2]
                else Hooks.CallShape.expanded [Hooks.PyArg.atom 1, .atom 2] false)]) :=
  ⟨rfl, c7_amended ⟨4, ["info".toList]⟩ "h".toList 0
    [Hooks.PyArg.atom 1, .atom 2] false (fun _ => .hok) rfl⟩

end C7

section C8

/-- Counterexample to claim C8 as stated.  Load a set whose longest key
is 7 characters (`longkey`), delete that key through the public API,
and write the set again: the padding width used is still the cached 7
(the written line is `"a      : y"`), not the length 1 of the longest
key actually present — `_write_set` starts its `longest` computation
from the cached `LONGEST_KEY` value instead of recomputing from the
current keys. -/
theorem c8_counterexample :
    Storage.readSetF 10 0 ["longkey: x".toList, "a      : y".toList, "-".toList] .nil
      = .ok (.cons Storage.READ_ORDER_KEY (.vkeys ["longkey".toList, "a".toList])
          (.cons "longkey".toList (.vstr "x".toList)
            (.cons "a".toList (.vstr "y".toList)
              (.cons Storage.LONGEST_KEY (.vint 7) .nil))), [])
    ∧ Storage.delItem
        (.cons Storage.READ_ORDER_KEY (.vkeys ["longkey".toList, "a".toList])
          (.cons "longkey".toList (.vstr "x".toList)
            (.cons "a".toList (.vstr "y".toList)
              (.cons Storage.LONGEST_KEY (.vint 7) .nil)))) "longkey".toList
      = .ok (.cons Storage.READ_ORDER_KEY (.vkeys ["a".toList])
          (.cons "a".toList (.vstr "y".toList)
            (.cons Storage.LONGEST_KEY (.vint 7) .nil)))
    ∧ Storage.computeLongest
        (.cons Storage.READ_ORDER_KEY (.vkeys ["a".toList])
          (.cons "a".toList (.vstr "y".toList)
            (.cons Storage.LONGEST_KEY (.vint 7) .nil)))
      = .ok 7
    ∧ Storage.maxPubKeyLen
        (.cons Storage.READ_ORDER_KEY (.vkeys ["a".toList])
          (.cons "a".toList (.vstr "y".toList)
            (.cons Storage.LONGEST_KEY (.vint 7) .nil)))
      = 1
    ∧ Storage.writeSetF 5 0
        (.cons Storage.READ_ORDER_KEY (.vkeys ["a".toList])
          (.cons "a".toList (.vstr "y".toList)
            (.cons Storage.LONGEST_KEY (.vint 7) .nil)))
      = .ok ["a      : y".toList, "-".toList]
    ∧ (7 : Int) ≠ 1 :=
  ⟨rfl, rfl, rfl, rfl, rfl, by decide⟩

theorem foldl_max_int_nat (ks : List PyStr) : ∀ (n : Nat),
    ks.foldl (fun acc k => max acc (k.length : Int)) (n : Int)
      = ((ks.foldl (fun acc k => max acc k.length) n : Nat) : Int) := by
  induction ks with
  | nil =>
    intro n
    rfl
  | cons k ks ih =>
    intro n
    simp only [List.foldl_cons]
    rw [← Nat.cast_max, ih]

theorem foldl_max_int_init (ks : List PyStr) : ∀ (n : Int), 0 ≤ n →
    ks.foldl (fun acc k => max acc (k.length : Int)) n
      = max n (ks.foldl (fun acc k => max acc (k.length : Int)) 0) := by
  induction ks with
  | nil =>
    intro n hn
    simp [max_eq_left hn]
  | cons k ks ih =>
    intro n hn
    simp only [List.foldl_cons]
    rw [ih (max n (k.length : Int)) (le_trans hn (le_max_left _ _)),
      ih (max 0 (k.length : Int)) (le_max_left _ _),
      max_eq_right (Int.natCast_nonneg k.length), max_assoc]

/-- Claim C8, amended.  The longest-key width used for padding at a
nesting level is the maximum of the cached `LONGEST_KEY` sentinel value
(when one is present, as after any load) and the length of the longest
key actually present; only for a set with no cached sentinel does it
equal the longest current key.  Stale cached widths therefore survive
key deletion. -/
theorem c8_amended (d : PyDict) (n : Int) (hn : 0 ≤ n) :
    (pyLookup d Storage.LONGEST_KEY = none →
      Storage.computeLongest d = .ok ((Storage.maxPubKeyLen d : Nat) : Int))
    ∧ (pyLookup d Storage.LONGEST_KEY = some (.vint n) →
      Storage.computeLongest d = .ok (max n ((Storage.maxPubKeyLen d : Nat) : Int))) := by
  constructor
  · intro h
    simp only [Storage.computeLongest.eq_def, h]
    rw [show (0 : Int) = ((0 : Nat) : Int) from rfl, foldl_max_int_nat]
    rfl
  · intro h
    simp only [Storage.computeLongest.eq_def, h]
    rw [foldl_max_int_init _ n hn,
      show (0 : Int) = ((0 : Nat) : Int) from rfl, foldl_max_int_nat]
    rfl

/-- Witness for C8's amended claim on a loaded-then-pruned set carrying
a stale cached width. -/
theorem c8_amended_witness :
    pyLookup
        (.cons Storage.READ_ORDER_KEY (.vkeys ["a".toList])
          (.cons "a".toList (.vstr "y".toList)
            (.cons Storage.LONGEST_KEY (.vint 7) .nil)))
        Storage.LONGEST_KEY = some (.vint 7)
    ∧ Storage.computeLongest
        (.cons Storage.READ_ORDER_KEY (.vkeys ["a".toList])
          (.cons "a".toList (.vstr "y".toList)
            (.cons Storage.LONGEST_KEY (.vint 7) .nil)))
      = .ok (max 7 ((Storage.maxPubKeyLen
          (.cons Storage.READ_ORDER_KEY (.vkeys ["a".toList])
            (.cons "a".toList (.vstr "y".toList)
              (.cons Storage.LONGEST_KEY (.vint 7) .nil))) : Nat) : Int)) :=
  ⟨rfl,
   ((c8_amended
     (.cons Storage.READ_ORDER_KEY (.vkeys ["a".toList])
       (.cons "a".toList (.vstr "y".toList)
         (.cons Storage.LONGEST_KEY (.vint 7) .nil))) 7 (by decide)).2 rfl)⟩

end C8

section C3

theorem dlookup_isSome_iff_mem_keys {κ α : Type} [DecidableEq κ] :
    ∀ (t : List (κ × α)) (k : κ), (dlookup t k).isSome = true ↔ k ∈ t.map Prod.fst
  | [], k => by simp [dlookup]
  | (k0, v0) :: t, k => by
    by_cases h : k0 = k
    · subst h; simp [dlookup]
    · simp only [dlookup, if_neg h, List.map_cons, List.mem_cons]
      rw [dlookup_isSome_iff_mem_keys t k]
      constructor
      · exact Or.inr
      · rintro (rfl | hm)
        · exact absurd rfl h
        · exact hm

theorem dset_keys {κ α : Type} [DecidableEq κ] :
    ∀ (t : List (κ × α)) (k : κ) (v : α),
      (dset t k v).map Prod.fst
        = if (dlookup t k).isSome then t.map Prod.fst else t.map Prod.fst ++ [k]
  | [], k, v => by simp [dset, dlookup]
  | (k0, v0) :: t, k, v => by
    by_cases h : k0 = k
    · subst h; simp [dset, dlookup]
    · simp only [dset, if_neg h, List.map_cons, dlookup, dset_keys t k v]
      by_cases hc : (dlookup t k).isSome <;> simp [hc]

theorem hookAdd_prios_self (st : Hooks.HooksState) (hook : PyStr)
    (f : Hooks.PyFunc) (p : Int) :
    dlookup (Hooks.hookAdd st hook f none p).prios hook
      = some (Hooks.bucketStep ((dlookup st.prios hook).getD []) p
          ⟨f.fid, Hooks.addInferred none f⟩) := by
  simp [Hooks.hookAdd, Hooks.bucketStep, dlookup_dset_self]

theorem hookAddAll_prios (hook : PyStr) :
    ∀ (regs : List (Int × Hooks.PyFunc)) (st : Hooks.HooksState), regs ≠ [] →
      dlookup (Hooks.hookAddAll st hook regs).prios hook
        = some (Hooks.ptFold ((dlookup st.prios hook).getD []) regs)
  | [], _, h => absurd rfl h
  | (p, f) :: rest, st, _ => by
    rw [Hooks.hookAddAll]
    cases rest with
    | nil =>
      rw [Hooks.hookAddAll]
      simpa [Hooks.ptFold] using hookAdd_prios_self st hook f p
    | cons r rest2 =>
      rw [hookAddAll_prios hook (r :: rest2) _ (by simp),
        hookAdd_prios_self st hook f p]
      simp [Hooks.ptFold]

theorem hookAddAll_table (hook : PyStr) :
    ∀ (regs : List (Int × Hooks.PyFunc)) (st : Hooks.HooksState), regs ≠ [] →
      dlookup (Hooks.hookAddAll st hook regs).table hook
        = some (Hooks.buildRunList (Hooks.ptFold ((dlookup st.prios hook).getD []) regs))
  | [], _, h => absurd rfl h
  | (p, f) :: rest, st, _ => by
    rw [Hooks.hookAddAll]
    cases rest with
    | nil =>
      rw [Hooks.hookAddAll]
      simp [Hooks.hookAdd, Hooks.rebuildHookTable, dlookup_dset_self,
        Hooks.ptFold, Hooks.bucketStep]
    | cons r rest2 =>
      rw [hookAddAll_table hook (r :: rest2) _ (by simp),
        hookAdd_prios_self st hook f p]
      simp [Hooks.ptFold]

theorem ptFold_bucket (p : Int) :
    ∀ (regs : List (Int × Hooks.PyFunc)) (pt : Hooks.PrioTable),
      (dlookup (Hooks.ptFold pt regs) p).getD []
        = (dlookup pt p).getD [] ++ Hooks.bucketSpec regs p
  | [], pt => by simp [Hooks.ptFold, Hooks.bucketSpec]
  | (q, f) :: rest, pt => by
    rw [Hooks.ptFold, ptFold_bucket p rest]
    by_cases h : q = p
    · subst h
      simp [Hooks.bucketStep, dlookup_dset_self, Hooks.bucketSpec]
    · simp [Hooks.bucketStep, dlookup_dset_ne _ q p _ h, Hooks.bucketSpec, h]

theorem dedupFirstAux_congr :
    ∀ (l s1 s2 : List Int), (∀ x, x ∈ s1 ↔ x ∈ s2) →
      Hooks.dedupFirstAux s1 l = Hooks.dedupFirstAux s2 l
  | [], _, _, _ => rfl
  | x :: xs, s1, s2, h => by
    rw [Hooks.dedupFirstAux, Hooks.dedupFirstAux]
    by_cases hx : x ∈ s1
    · rw [if_pos hx, if_pos ((h x).mp hx), dedupFirstAux_congr xs s1 s2 h]
    · rw [if_neg hx, if_neg (fun c => hx ((h x).mpr c)),
        dedupFirstAux_congr xs (x :: s1) (x :: s2) (by intro y; simp [h y])]

theorem ptFold_keys :
    ∀ (regs : List (Int × Hooks.PyFunc)) (pt : Hooks.PrioTable),
      (Hooks.ptFold pt regs).map Prod.fst
        = pt.map Prod.fst
          ++ Hooks.dedupFirstAux (pt.map Prod.fst) (regs.map Prod.fst)
  | [], pt => by simp [Hooks.ptFold, Hooks.dedupFirstAux]
  | (q, f) :: rest, pt => by
    rw [Hooks.ptFold, ptFold_keys rest]
    have hk := dset_keys pt q ((dlookup pt q).getD [] ++ [⟨f.fid, Hooks.addInferred none f⟩])
    rw [List.map_cons]
    by_cases h : (dlookup pt q).isSome
    · have hqmem : q ∈ pt.map Prod.fst := (dlookup_isSome_iff_mem_keys pt q).mp h
      rw [Hooks.dedupFirstAux, if_pos hqmem, Hooks.bucketStep, hk, if_pos h]
    · have hqmem : q ∉ pt.map Prod.fst := by
        intro c
        exact h ((dlookup_isSome_iff_mem_keys pt q).mpr c)
      rw [Hooks.dedupFirstAux, if_neg hqmem, Hooks.bucketStep, hk, if_neg h,
        dedupFirstAux_congr (rest.map Prod.fst) (pt.map Prod.fst ++ [q])
          (q :: pt.map Prod.fst) (by intro y; simp; tauto)]
      simp

theorem mem_intInsertDesc (x y : Int) :
    ∀ (l : List Int), y ∈ Hooks.intInsertDesc x l ↔ y = x ∨ y ∈ l
  | [] => by simp [Hooks.intInsertDesc]
  | z :: zs => by
    rw [Hooks.intInsertDesc]
    by_cases h : x ≤ z
    · rw [if_pos h]
      simp only [List.mem_cons, mem_intInsertDesc x y zs]
      tauto
    · rw [if_neg h]
      simp only [List.mem_cons]

theorem mem_intSortDesc (y : Int) :
    ∀ (l : List Int), y ∈ Hooks.intSortDesc l ↔ y ∈ l
  | [] => by simp [Hooks.intSortDesc]
  | x :: xs => by
    rw [Hooks.intSortDesc, mem_intInsertDesc x y (Hooks.intSortDesc xs)]
    simp [mem_intSortDesc y xs]

theorem pairwise_intInsertDesc (x : Int) :
    ∀ (l : List Int), l.Pairwise (fun a b => b < a) → (∀ y ∈ l, y ≠ x) →
      (Hooks.intInsertDesc x l).Pairwise (fun a b => b < a)
  | [], _, _ => by simp [Hooks.intInsertDesc]
  | z :: zs, hp, hne => by
    rw [Hooks.intInsertDesc]
    rcases List.pairwise_cons.mp hp with ⟨hz, hzs⟩
    by_cases h : x ≤ z
    · rw [if_pos h]
      refine List.pairwise_cons.mpr ⟨?_, pairwise_intInsertDesc x zs hzs
        (fun y hy => hne y (List.mem_cons_of_mem z hy))⟩
      intro y hy
      rcases (mem_intInsertDesc x y zs).mp hy with rfl | hmem
      · exact lt_of_le_of_ne h (fun c => hne z (List.mem_cons_self z zs) c.symm)
      · exact hz y hmem
    · rw [if_neg h]
      refine List.pairwise_cons.mpr ⟨?_, hp⟩
      intro y hy
      rcases List.mem_cons.mp hy with rfl | hmem
      · exact lt_of_not_le h
      · exact lt_trans (hz y hmem) (lt_of_not_le h)

theorem pairwise_intSortDesc :
    ∀ (l : List Int), l.Nodup → (Hooks.intSortDesc l).Pairwise (fun a b => b < a)
  | [], _ => by simp [Hooks.intSortDesc]
  | x :: xs, hnd => by
    rw [Hooks.intSortDesc]
    rcases List.nodup_cons.mp hnd with ⟨hx, hxs⟩
    refine pairwise_intInsertDesc x (Hooks.intSortDesc xs)
      (pairwise_intSortDesc xs hxs) ?_
    intro y hy hyx
    subst hyx
    exact hx ((mem_intSortDesc y xs).mp hy)

theorem dedupFirstAux_nodup_notmem :
    ∀ (l seen : List Int), (Hooks.dedupFirstAux seen l).Nodup
      ∧ ∀ x ∈ Hooks.dedupFirstAux seen l, x ∉ seen
  | [], _ => ⟨List.nodup_nil, by simp [Hooks.dedupFirstAux]⟩
  | x :: xs, seen => by
    rw [Hooks.dedupFirstAux]
    by_cases h : x ∈ seen
    · rw [if_pos h]
      exact dedupFirstAux_nodup_notmem xs seen
    · rw [if_neg h]
      obtain ⟨hnd, hnm⟩ := dedupFirstAux_nodup_notmem xs (x :: seen)
      refine ⟨List.nodup_cons.mpr ⟨?_, hnd⟩, ?_⟩
      · intro hc
        exact (hnm x hc) (List.mem_cons_self x seen)
      · intro y hy
        rcases List.mem_cons.mp hy with rfl | hy2
        · exact h
        · exact fun c => hnm y hy2 (List.mem_cons_of_mem x c)

/-- Claim C3 (confirmed).  The scenario: four handlers registered on one
hook at priorities `0, 5, 0, -1` (in that order) produce the run order
`[priority-5 handler, first priority-0 handler, second priority-0
handler, priority -1 handler]`.  In general, for any non-empty
registration sequence, the rebuilt run list concatenates the priority
buckets over the strictly descending sorted priority list, each bucket
holding its registrations in registration order. -/
theorem c3_hook_ordering (regs : List (Int × Hooks.PyFunc)) (hook : PyStr)
    (hne : regs ≠ []) :
    dlookup (Hooks.hookAddAll Hooks.initState "h".toList
        [(0, ⟨1, ["x".toList]⟩), (5, ⟨2, ["x".toList]⟩),
         (0, ⟨3, ["x".toList]⟩), (-1, ⟨4, ["x".toList]⟩)]).table "h".toList
      = some [⟨2, false⟩, ⟨1, false⟩, ⟨3, false⟩, ⟨4, false⟩]
    ∧ dlookup (Hooks.hookAddAll Hooks.initState hook regs).table hook
      = some ((Hooks.intSortDesc (Hooks.dedupFirst (regs.map Prod.fst))).foldl
          (fun acc p => acc ++ Hooks.bucketSpec regs p) [])
    ∧ (Hooks.intSortDesc (Hooks.dedupFirst (regs.map Prod.fst))).Pairwise
        (fun a b => b < a) := by
  refine ⟨by decide, ?_, ?_⟩
  · rw [hookAddAll_table hook regs Hooks.initState hne]
    have hkeys : (Hooks.ptFold ((dlookup Hooks.initState.prios hook).getD []) regs).map
        Prod.fst = Hooks.dedupFirst (regs.map Prod.fst) := by
      rw [show (dlookup Hooks.initState.prios hook).getD [] = ([] : Hooks.PrioTable)
        from rfl, ptFold_keys regs []]
      rfl
    have hfun : (fun (acc : List Hooks.HookedFn) p =>
        acc ++ (dlookup (Hooks.ptFold ((dlookup Hooks.initState.prios hook).getD []) regs)
          p).getD [])
        = fun acc p => acc ++ Hooks.bucketSpec regs p := by
      funext acc p
      rw [ptFold_bucket p regs]
      rfl
    rw [Hooks.buildRunList, hkeys, hfun]
  · exact pairwise_intSortDesc _ (dedupFirstAux_nodup_notmem (regs.map Prod.fst) []).1

/-- Witness for C3 with a single registration. -/
theorem c3_hook_ordering_witness :
    ([((1 : Int), (⟨9, ["x".toList]⟩ : Hooks.PyFunc))] ≠ [])
    ∧ (dlookup (Hooks.hookAddAll Hooks.initState "h".toList
          [(0, ⟨1, ["x".toList]⟩), (5, ⟨2, ["x".toList]⟩),
           (0, ⟨3, ["x".toList]⟩), (-1, ⟨4, ["x".toList]⟩)]).table "h".toList
        = some [⟨2, false⟩, ⟨1, false⟩, ⟨3, false⟩, ⟨4, false⟩]
       ∧ dlookup (Hooks.hookAddAll Hooks.initState "g".toList
           [((1 : Int), (⟨9, ["x".toList]⟩ : Hooks.PyFunc))]).table "g".toList
        = some ((Hooks.intSortDesc (Hooks.dedupFirst
            ([((1 : Int), (⟨9, ["x".toList]⟩ : Hooks.PyFunc))].map Prod.fst))).foldl
            (fun acc p => acc ++ Hooks.bucketSpec
              [((1 : Int), (⟨9, ["x".toList]⟩ : Hooks.PyFunc))] p) [])
       ∧ (Hooks.intSortDesc (Hooks.dedupFirst
            ([((1 : Int), (⟨9, ["x".toList]⟩ : Hooks.PyFunc))].map Prod.fst))).Pairwise
            (fun a b => b < a)) :=
  ⟨by decide,
   c3_hook_ordering [((1 : Int), (⟨9, ["x".toList]⟩ : Hooks.PyFunc))] "g".toList
     (by decide)⟩

end C3

section C4

theorem runLoop_eq_spec (hook : PyStr) (args : List Hooks.PyArg) (kwargs : Bool)
    (beh : Nat → Hooks.HRes) :
    ∀ (hs : List Hooks.HookedFn),
      Hooks.runLoop hs hook args kwargs beh = Hooks.specResult hs hook args kwargs beh
  | [] => by
    simp [Hooks.runLoop, Hooks.specResult, Hooks.specInvoked, Hooks.takeThrough,
      List.find?]
  | h :: rest => by
    rw [Hooks.runLoop]
    cases hb : beh h.fid with
    | hok =>
      rw [runLoop_eq_spec hook args kwargs beh rest]
      simp [Hooks.specResult, Hooks.specInvoked, Hooks.takeThrough, Hooks.halts, hb,
        List.find?]
    | hstop =>
      simp [Hooks.specResult, Hooks.specInvoked, Hooks.takeThrough, Hooks.halts, hb,
        List.find?]
    | hexit =>
      simp [Hooks.specResult, Hooks.specInvoked, Hooks.takeThrough, Hooks.halts, hb,
        List.find?]
    | herr =>
      rw [runLoop_eq_spec hook args kwargs beh rest]
      simp [Hooks.specResult, Hooks.specInvoked, Hooks.takeThrough, Hooks.halts, hb,
        List.find?]

/-- Counterexample to claim C4 as stated.  With a handler registered for
the hook and an argument list whose first element is a packed-argument
marker followed by a further argument, `run` raises `ValueError` before
invoking anything: no handler runs, although the claim promises that
whenever handlers are registered they "run in run order" for every
argument list (the registered handler would have returned normally). -/
theorem c4_counterexample :
    dlookup [("h".toList, [(⟨1, false⟩ : Hooks.HookedFn)])] "h".toList
      = some [⟨1, false⟩]
    ∧ Hooks.runHook [("h".toList, [⟨1, false⟩])] "h".toList
        [.packed [], .atom 0] false (fun _ => .hok)
      = ⟨[], [], .badArgs⟩
    ∧ (Hooks.specResult [⟨1, false⟩] "h".toList [.packed [], .atom 0] false
        (fun _ => .hok)).calls
      = [(1, .expanded [.packed [], .atom 0] false)]
    ∧ ([] : List (Nat × Hooks.CallShape))
      ≠ [(1, .expanded [.packed [], .atom 0] false)] :=
  ⟨rfl, rfl, rfl, fun hc => List.noConfusion hc⟩

/-- Claim C4, amended.  `run` is a no-op when the hook name has no entry
in the runnable table (for every argument list, even malformed ones).
When handlers are registered and the arguments are not a misused
packed-argument call, handlers run in run order with the claimed
exception policy — `StopIteration` halts the remaining handlers of this
call only, `SystemExit` ends dispatch with the exit propagating, and any
other exception is caught, logged with the hook name, and dispatch
continues — as captured by `specResult`.  A *misused* packed-argument
call (packed marker first plus any further positional or keyword
argument) instead raises `ValueError` before invoking any handler, and
a well-formed packed call dispatches on the unpacked arguments. -/
theorem c4_amended (table : List (PyStr × List Hooks.HookedFn)) (hook : PyStr)
    (args : List Hooks.PyArg) (kwargs : Bool) (beh : Nat → Hooks.HRes)
    (hs : List Hooks.HookedFn) (l restArgs : List Hooks.PyArg) :
    (dlookup table hook = none →
      Hooks.runHook table hook args kwargs beh = ⟨[], [], .normal⟩)
    ∧ (dlookup table hook = some hs → Hooks.leadingPacked args = false →
      Hooks.runHook table hook args kwargs beh
        = Hooks.specResult hs hook args kwargs beh)
    ∧ (dlookup table hook = some hs → args = .packed l :: restArgs →
      (restArgs.length != 0 || kwargs) = true →
      Hooks.runHook table hook args kwargs beh = ⟨[], [], .badArgs⟩)
    ∧ (dlookup table hook = some hs → args = [.packed l] → kwargs = false →
      Hooks.runHook table hook args kwargs beh
        = Hooks.specResult hs hook l false beh) := by
  refine ⟨?_, ?_, ?_, ?_⟩
  · intro h
    simp [Hooks.runHook, h]
  · intro h hlp
    rw [Hooks.runHook, h]
    cases args with
    | nil => exact runLoop_eq_spec hook [] kwargs beh hs
    | cons a rest =>
      cases a with
      | atom n => exact runLoop_eq_spec hook (.atom n :: rest) kwargs beh hs
      | packed m => simp [Hooks.leadingPacked] at hlp
  · intro h ha hcond
    subst ha
    rw [Hooks.runHook, h]
    simp only [hcond, if_true]
  · intro h ha hk
    subst ha
    subst hk
    rw [Hooks.runHook, h]
    simp only [List.length_nil]
    exact runLoop_eq_spec hook l false beh hs

/-- Witness for C4's amended claim: three handlers where the second
raises an ordinary exception and the third raises the stop signal. -/
theorem c4_amended_witness :
    dlookup [("h".toList,
        [(⟨1, false⟩ : Hooks.HookedFn), ⟨2, false⟩, ⟨3, false⟩])] "h".toList
      = some [⟨1, false⟩, ⟨2, false⟩, ⟨3, false⟩]
    ∧ Hooks.leadingPacked [.atom 5] = false
    ∧ Hooks.runHook [("h".toList, [⟨1, false⟩, ⟨2, false⟩, ⟨3, false⟩])] "h".toList
        [.atom 5] false
        (fun i => if i = 2 then .herr else if i = 3 then .hstop else .hok)
      = Hooks.specResult [⟨1, false⟩, ⟨2, false⟩, ⟨3, false⟩] "h".toList [.atom 5] false
        (fun i => if i = 2 then .herr else if i = 3 then .hstop else .hok) :=
  ⟨rfl, rfl,
   (c4_amended [("h".toList, [⟨1, false⟩, ⟨2, false⟩, ⟨3, false⟩])] "h".toList
     [.atom 5] false (fun i => if i = 2 then .herr else if i = 3 then .hstop else .hok)
     [⟨1, false⟩, ⟨2, false⟩, ⟨3, false⟩] [] []).2.1 rfl rfl⟩

end C4

section C1Strings

theorem length_spacesL (n : Nat) : (spacesL n).length = n := by
  simp [spacesL]

theorem dropWhile_spacesL (l : PyStr) :
    ∀ (n : Nat), (spacesL n ++ l).dropWhile isPyWS = l.dropWhile isPyWS
  | 0 => rfl
  | n + 1 => by
    rw [show spacesL (n + 1) = ' ' :: spacesL n from rfl]
    simpa [List.dropWhile, isPyWS] using dropWhile_spacesL l n

theorem takeWhile_spacesL (l : PyStr) :
    ∀ (n : Nat), (spacesL n ++ l).takeWhile isPyWS = spacesL n ++ l.takeWhile isPyWS
  | 0 => rfl
  | n + 1 => by
    rw [show spacesL (n + 1) = ' ' :: spacesL n from rfl]
    simpa [List.takeWhile, isPyWS] using takeWhile_spacesL l n

theorem takeWhile_cons_false {p : Char → Bool} {c : Char} (rest : PyStr)
    (h : p c = false) : (c :: rest).takeWhile p = [] := by
  simp [List.takeWhile, h]

theorem pyIndent_spaces_cons (n : Nat) (c : Char) (rest : PyStr)
    (hc : isPyWS c = false) : pyIndent (spacesL n ++ c :: rest) = n := by
  rw [pyIndent, List.append_assoc, takeWhile_spacesL,
    show (c :: rest) ++ ['\n'] = c :: (rest ++ ['\n']) from rfl,
    takeWhile_cons_false _ hc]
  simp [length_spacesL]

theorem pyIndent_termLine (ind : Nat) : pyIndent (Storage.termLine ind) = ind :=
  pyIndent_spaces_cons ind '-' [] (by decide)

theorem pyIndent_ge_spaces (n : Nat) (l : PyStr) : n ≤ pyIndent (spacesL n ++ l) := by
  rw [pyIndent, List.append_assoc, takeWhile_spacesL]
  simp [length_spacesL]

theorem drop_spacesL : ∀ (n : Nat) (l : PyStr), (spacesL n ++ l).drop n = l
  | 0, l => rfl
  | n + 1, l => by
    rw [show spacesL (n + 1) = ' ' :: spacesL n from rfl]
    simpa using drop_spacesL n l

theorem dropWhile_eq_self_of_all {p : Char → Bool} :
    ∀ (l : PyStr), (∀ c ∈ l, p c = false) → l.dropWhile p = l
  | [], _ => rfl
  | c :: rest, h => by
    simp [List.dropWhile, h c (List.mem_cons_self c rest)]

theorem pyRstripNL_no_nl (s : PyStr) (h : '\n' ∉ s) : pyRstripNL s = s := by
  rw [pyRstripNL, dropWhile_eq_self_of_all s.reverse, List.reverse_reverse]
  intro c hc
  simp only [List.mem_reverse] at hc
  simp only [decide_eq_false_iff_not]
  intro hcn
  subst hcn
  exact h hc

theorem pyRstripNL_append_nl (s : PyStr) (h : '\n' ∉ s) :
    pyRstripNL (s ++ ['\n']) = s := by
  rw [pyRstripNL, List.reverse_append]
  rw [show (['\n'] : PyStr).reverse ++ s.reverse = '\n' :: s.reverse from rfl]
  rw [show ('\n' :: s.reverse).dropWhile (· = '\n') = s.reverse.dropWhile (· = '\n') by
    simp [List.dropWhile]]
  rw [dropWhile_eq_self_of_all s.reverse, List.reverse_reverse]
  intro c hc
  simp only [List.mem_reverse] at hc
  simp only [decide_eq_false_iff_not]
  intro hcn
  subst hcn
  exact h hc

theorem splitColon_append : ∀ (a b : PyStr), ':' ∉ a →
    splitColon (a ++ ':' :: b) = some (a, b)
  | [], b, _ => by simp [splitColon]
  | c :: a, b, h => by
    have hc : ¬ c = ':' := fun hcc => h (hcc ▸ List.mem_cons_self c a)
    rw [show (c :: a) ++ ':' :: b = c :: (a ++ ':' :: b) from rfl, splitColon,
      if_neg hc, splitColon_append a b (fun hm => h (List.mem_cons_of_mem c hm))]
    rfl

theorem dropWhile_cons_head {p : Char → Bool} (c : Char) (rest : PyStr)
    (h : p c = false) : (c :: rest).dropWhile p = c :: rest := by
  simp [List.dropWhile, h]

theorem pyLstrip_of_head (c : Char) (rest : PyStr) (h : isPyWS c = false) :
    pyLstrip (c :: rest) = c :: rest :=
  dropWhile_cons_head c rest h

theorem spacesL_no_colon (n : Nat) : ':' ∉ spacesL n := by
  intro h
  rw [spacesL, List.mem_replicate] at h
  exact absurd h.2.symm (by decide)

theorem spacesL_no_nl (n : Nat) : '\n' ∉ spacesL n := by
  intro h
  rw [spacesL, List.mem_replicate] at h
  exact absurd h.2.symm (by decide)

theorem reverse_spacesL (n : Nat) : (spacesL n).reverse = spacesL n := by
  simp [spacesL, List.reverse_replicate]

theorem pyStrip_key_pad (k : PyStr) (m : Nat)
    (hne : k ≠ []) (hhead : ∀ c, k.head? = some c → isPyWS c = false)
    (hlast : ∀ c, k.getLast? = some c → isPyWS c = false) :
    pyStrip (k ++ spacesL m) = k := by
  obtain ⟨c, rest, rfl⟩ := List.exists_cons_of_ne_nil hne
  rw [pyStrip, show (c :: rest) ++ spacesL m = c :: (rest ++ spacesL m) from rfl,
    pyLstrip_of_head c _ (hhead c rfl)]
  obtain ⟨ys, y, hk⟩ : ∃ ys y, c :: rest = ys ++ [y] := by
    rcases (c :: rest).eq_nil_or_concat with h | ⟨ys, y, h⟩
    · exact absurd h (by simp)
    · exact ⟨ys, y, by rw [h, List.concat_eq_append]⟩
  have hy : isPyWS y = false := by
    refine hlast y ?_
    rw [hk, List.getLast?_concat]
  rw [show c :: (rest ++ spacesL m) = (c :: rest) ++ spacesL m from rfl, hk,
    List.reverse_append, reverse_spacesL, List.reverse_append, List.reverse_singleton,
    dropWhile_spacesL,
    show ([y] : PyStr) ++ ys.reverse = y :: ys.reverse from rfl,
    dropWhile_cons_head y _ hy, List.reverse_cons, List.reverse_reverse]

theorem pyLstrip_key_pad_length (k : PyStr) (m : Nat)
    (hne : k ≠ []) (hhead : ∀ c, k.head? = some c → isPyWS c = false) :
    (pyLstrip (k ++ spacesL m)).length = k.length + m := by
  obtain ⟨c, rest, rfl⟩ := List.exists_cons_of_ne_nil hne
  rw [show (c :: rest) ++ spacesL m = c :: (rest ++ spacesL m) from rfl,
    pyLstrip_of_head c _ (hhead c rfl)]
  simp [length_spacesL]
  omega

end C1Strings

section C1StringBlocks

theorem joinNL_splitNL : ∀ (s : PyStr), Storage.joinNL (splitNL s) = s ++ ['\n']
  | [] => rfl
  | c :: rest => by
    rw [splitNL]
    by_cases h : c = '\n'
    · subst h
      rw [if_pos rfl, Storage.joinNL, List.foldr_cons, List.nil_append,
        show List.foldr (fun p acc => p ++ '\n' :: acc) ([] : PyStr) (splitNL rest)
          = Storage.joinNL (splitNL rest) from rfl,
        joinNL_splitNL rest]
      rfl
    · rw [if_neg h]
      rcases hs : splitNL rest with _ | ⟨p, ps⟩
      · exact absurd hs (by
          cases rest with
          | nil => simp [splitNL]
          | cons c2 r2 =>
            rw [splitNL]
            by_cases h2 : c2 = '\n'
            · simp [h2]
            · rw [if_neg h2]
              rcases h3 : splitNL r2 with _ | _ <;> simp)
      · have := joinNL_splitNL rest
        rw [hs] at this
        rw [Storage.joinNL, List.foldr_cons] at this ⊢
        rw [show ((c :: p) ++ '\n'
            :: List.foldr (fun p acc => p ++ '\n' :: acc) [] ps : PyStr)
          = c :: (p ++ '\n' :: List.foldr (fun p acc => p ++ '\n' :: acc) [] ps) from rfl]
        rw [this]
        rfl

theorem stringFinish_append_nl (s : PyStr) : Storage.stringFinish (s ++ ['\n']) = s := by
  rw [Storage.stringFinish, if_pos (List.getLast?_concat s), List.dropLast_concat]

theorem readString_writes (ind : Nat) :
    ∀ (pieces : List PyStr) (rest : List PyStr) (acc : PyStr) (fuel : Nat),
      pieces.length < fuel →
      (∀ r0 t, rest = r0 :: t → pyIndent r0 < ind) →
      Storage.readStringF fuel ind ((pieces.map (fun p => spacesL ind ++ p)) ++ rest) acc
        = .ok (Storage.stringFinish (acc ++ Storage.joinNL pieces), rest)
  | [], rest, acc, fuel, hf, hrest => by
    obtain ⟨f, rfl⟩ : ∃ f, fuel = f + 1 := ⟨fuel - 1, by omega⟩
    cases rest with
    | nil =>
      rw [List.map_nil, List.nil_append, Storage.readStringF]
      rw [show (acc ++ Storage.joinNL ([] : List PyStr) : PyStr) = acc by
        simp [Storage.joinNL]]
      rfl
    | cons r0 t =>
      rw [List.map_nil, List.nil_append, Storage.readStringF,
        if_pos (hrest r0 t rfl)]
      rw [show (acc ++ Storage.joinNL ([] : List PyStr) : PyStr) = acc by
        simp [Storage.joinNL]]
      rfl
  | p :: ps, rest, acc, fuel, hf, hrest => by
    obtain ⟨f, rfl⟩ : ∃ f, fuel = f + 1 := ⟨fuel - 1, by omega⟩
    rw [List.map_cons, List.cons_append, Storage.readStringF,
      if_neg (by
        have := pyIndent_ge_spaces ind p
        omega)]
    rw [show ((spacesL ind ++ p) ++ ['\n'] : PyStr) = spacesL ind ++ (p ++ ['\n']) by
      rw [List.append_assoc], drop_spacesL]
    rw [readString_writes ind ps rest (acc ++ (p ++ ['\n'])) f
      (by simpa using Nat.lt_of_succ_lt_succ hf) hrest]
    rw [show (acc ++ (p ++ ['\n'])) ++ Storage.joinNL ps
      = acc ++ Storage.joinNL (p :: ps) by
        rw [Storage.joinNL, Storage.joinNL, List.foldr_cons, List.append_assoc,
          List.append_assoc]
        rfl]

theorem readString_of_write (ind : Nat) (s : PyStr) (rest : List PyStr) (fuel : Nat)
    (hf : (Storage.writeStringLines ind s).length < fuel)
    (hrest : ∀ r0 t, rest = r0 :: t → pyIndent r0 < ind) :
    Storage.readStringF fuel ind (Storage.writeStringLines ind s ++ rest) []
      = .ok (s, rest) := by
  rw [Storage.writeStringLines]
  rw [readString_writes ind (splitNL s) rest [] fuel
    (by simpa [Storage.writeStringLines] using hf) hrest]
  rw [List.nil_append, joinNL_splitNL, stringFinish_append_nl]

end C1StringBlocks

section C1EntryLines

theorem wfKeyB_spec (k : PyStr) (h : Storage.wfKeyB k = true) :
    k ≠ [] ∧ (∀ c, k.head? = some c → isPyWS c = false)
      ∧ (∀ c, k.getLast? = some c → isPyWS c = false)
      ∧ ':' ∉ k ∧ '\n' ∉ k
      ∧ k ≠ Storage.READ_ORDER_KEY ∧ k ≠ Storage.LONGEST_KEY := by
  rw [Storage.wfKeyB] at h
  simp only [Bool.and_eq_true, decide_eq_true_eq] at h
  obtain ⟨⟨⟨⟨⟨⟨h1, h2⟩, h3⟩, h4⟩, h5⟩, h6⟩, h7⟩ := h
  refine ⟨?_, ?_, ?_, h4, h5, h6, h7⟩
  · intro hknil
    subst hknil
    simp at h1
  · intro c hc
    rw [hc] at h2
    simpa using h2
  · intro c hc
    rw [hc] at h3
    simpa using h3

theorem valMarker_ne_nl : ∀ (v : PyVal), Storage.valMarker v ≠ '\n'
  | .vstr s => by
    rw [Storage.valMarker]
    by_cases hs : (s.contains '\n' || s.contains '\x0d') = true
    · rw [if_pos hs]
      decide
    · rw [if_neg hs]
      decide
  | .vint _ => by simp [Storage.valMarker]
  | .vfloat _ => by simp [Storage.valMarker]
  | .vkeys _ => by simp [Storage.valMarker]
  | .vlist _ => by simp [Storage.valMarker]
  | .vdict _ => by simp [Storage.valMarker]
  | .vsetObj _ => by simp [Storage.valMarker]

theorem entryLine_indent (ind : Nat) (longest : Int) (k : PyStr) (v : PyVal)
    (hk : Storage.wfKeyB k = true) :
    pyIndent (Storage.entryLine ind longest k v) = ind := by
  obtain ⟨hne, hhead, _, _, _, _, _⟩ := wfKeyB_spec k hk
  obtain ⟨c, rest, rfl⟩ := List.exists_cons_of_ne_nil hne
  rw [Storage.entryLine, Storage.padKey]
  simp only [List.append_assoc, List.cons_append]
  exact pyIndent_spaces_cons ind c _ (hhead c rfl)

theorem entryLine_proc (ind : Nat) (longest : Int) (k : PyStr) (v : PyVal)
    (hk : Storage.wfKeyB k = true) (hdat : '\n' ∉ Storage.valInline v) :
    pyRstripNL ((Storage.entryLine ind longest k v ++ ['\n']).drop ind)
      = Storage.padKey longest k ++ ':' :: Storage.valMarker v :: Storage.valInline v := by
  obtain ⟨hne, _, _, _, hnl, _, _⟩ := wfKeyB_spec k hk
  rw [Storage.entryLine]
  rw [show ((spacesL ind ++ Storage.padKey longest k
        ++ ':' :: Storage.valMarker v :: Storage.valInline v) ++ ['\n'] : PyStr)
    = spacesL ind ++ ((Storage.padKey longest k
        ++ ':' :: Storage.valMarker v :: Storage.valInline v) ++ ['\n']) by
      simp [List.append_assoc]]
  rw [drop_spacesL]
  refine pyRstripNL_append_nl _ ?_
  intro hmem
  rw [Storage.padKey] at hmem
  simp only [List.append_assoc, List.mem_append, List.mem_cons] at hmem
  rcases hmem with h | h | h | h | h
  · exact hnl h
  · exact spacesL_no_nl _ h
  · exact absurd h.symm (by decide)
  · exact valMarker_ne_nl v h.symm
  · exact hdat h

theorem padKey_no_colon (longest : Int) (k : PyStr) (hk : ':' ∉ k) :
    ':' ∉ Storage.padKey longest k := by
  rw [Storage.padKey]
  intro hmem
  rcases List.mem_append.mp hmem with h | h
  · exact hk h
  · exact spacesL_no_colon _ h

theorem entryLine_split (longest : Int) (k : PyStr) (v : PyVal)
    (hk : Storage.wfKeyB k = true) :
    splitColon (Storage.padKey longest k ++ ':' :: Storage.valMarker v
        :: Storage.valInline v)
      = some (Storage.padKey longest k,
          Storage.valMarker v :: Storage.valInline v) := by
  obtain ⟨_, _, _, hcol, _, _, _⟩ := wfKeyB_spec k hk
  exact splitColon_append _ _ (padKey_no_colon longest k hcol)

theorem padKey_strip (longest : Int) (k : PyStr) (hk : Storage.wfKeyB k = true) :
    pyStrip (Storage.padKey longest k) = k := by
  obtain ⟨hne, hhead, hlast, _, _, _, _⟩ := wfKeyB_spec k hk
  exact pyStrip_key_pad k _ hne hhead hlast

theorem padKey_lstrip_length (longest : Int) (k : PyStr)
    (hk : Storage.wfKeyB k = true) (hkl : (k.length : Int) ≤ longest) :
    (pyLstrip (Storage.padKey longest k)).length = longest.toNat := by
  obtain ⟨hne, hhead, _, _, _, _, _⟩ := wfKeyB_spec k hk
  rw [Storage.padKey, pyLstrip_key_pad_length k _ hne hhead]
  omega

theorem entryLine_ne_term (longest : Int) (k : PyStr) (v : PyVal)
    (hk : Storage.wfKeyB k = true) :
    (Storage.padKey longest k ++ ':' :: Storage.valMarker v
      :: Storage.valInline v) ≠ ['-'] := by
  obtain ⟨hne, _, _, _, _, _, _⟩ := wfKeyB_spec k hk
  intro hc
  have hlen := congrArg List.length hc
  simp only [List.length_append, List.length_cons, Storage.padKey] at hlen
  have : 1 ≤ k.length := by
    cases k with
    | nil => exact absurd rfl hne
    | cons c r => simp
  simp at hlen
  omega

theorem termLine_proc (ind : Nat) :
    pyRstripNL ((Storage.termLine ind ++ ['\n']).drop ind) = ['-'] := by
  rw [Storage.termLine, List.append_assoc, drop_spacesL]
  exact pyRstripNL_append_nl ['-'] (by decide)

end C1EntryLines

section C1FreshDicts

theorem strInsert_perm (x : PyStr) : ∀ (l : List PyStr), (strInsert x l).Perm (x :: l)
  | [] => List.Perm.refl _
  | y :: ys => by
    rw [strInsert]
    by_cases h : strLe y x
    · rw [if_pos h]
      exact ((strInsert_perm x ys).cons y).trans (List.Perm.swap x y ys)
    · rw [if_neg h]

theorem strSort_perm : ∀ (l : List PyStr), (strSort l).Perm l
  | [] => List.Perm.refl _
  | x :: xs => by
    rw [strSort]
    exact (strInsert_perm x (strSort xs)).trans ((strSort_perm xs).cons x)

theorem mem_strSort {y : PyStr} {l : List PyStr} : y ∈ strSort l ↔ y ∈ l :=
  (strSort_perm l).mem_iff

theorem strSort_nodup {l : List PyStr} (h : l.Nodup) : (strSort l).Nodup :=
  ((strSort_perm l).nodup_iff).mpr h

theorem freshD_cons_spec {k : PyStr} {v : PyVal} {d : PyDict}
    (h : Storage.freshD (.cons k v d) = true) :
    Storage.wfKeyB k = true ∧ pyContains d k = false
      ∧ Storage.freshV v = true ∧ Storage.freshD d = true := by
  rw [Storage.freshD] at h
  simp only [Bool.and_eq_true, decide_eq_true_eq] at h
  refine ⟨h.1.1.1, ?_, h.1.2, h.2⟩
  simpa using h.1.1.2

theorem freshD_lookup : ∀ (d : PyDict) (k : PyStr) (v : PyVal),
    Storage.freshD d = true → pyLookup d k = some v →
    Storage.wfKeyB k = true ∧ Storage.freshV v = true
  | .nil, _, _, _, h => by cases h
  | .cons k0 v0 d, k, v, hf, h => by
    obtain ⟨hk0, _, hv0, hd⟩ := freshD_cons_spec hf
    rw [pyLookup] at h
    by_cases he : k0 = k
    · rw [if_pos he] at h
      cases h
      subst he
      exact ⟨hk0, hv0⟩
    · rw [if_neg he] at h
      exact freshD_lookup d k v hd h

theorem mem_keys_lookup : ∀ (d : PyDict) (k : PyStr), k ∈ pyKeys d →
    ∃ v, pyLookup d k = some v
  | .nil, k, h => absurd h (by simp [pyKeys])
  | .cons k0 v0 d, k, h => by
    by_cases he : k0 = k
    · exact ⟨v0, by rw [pyLookup, if_pos he]⟩
    · rw [pyKeys, List.mem_cons] at h
      rcases h with rfl | h
      · exact absurd rfl he
      · obtain ⟨v, hv⟩ := mem_keys_lookup d k h
        exact ⟨v, by rw [pyLookup, if_neg he]; exact hv⟩

theorem lookup_mem_keys : ∀ (d : PyDict) (k : PyStr) (v : PyVal),
    pyLookup d k = some v → k ∈ pyKeys d
  | .nil, _, _, h => by cases h
  | .cons k0 v0 d, k, v, h => by
    rw [pyLookup] at h
    by_cases he : k0 = k
    · rw [pyKeys, he]
      exact List.mem_cons_self k _
    · rw [if_neg he] at h
      exact List.mem_cons_of_mem k0 (lookup_mem_keys d k v h)

theorem freshD_keys_nodup : ∀ (d : PyDict), Storage.freshD d = true → (pyKeys d).Nodup
  | .nil, _ => List.nodup_nil
  | .cons k v d, hf => by
    obtain ⟨_, hc, _, hd⟩ := freshD_cons_spec hf
    rw [pyKeys]
    refine List.nodup_cons.mpr ⟨?_, freshD_keys_nodup d hd⟩
    intro hmem
    obtain ⟨v', hv'⟩ := mem_keys_lookup d k hmem
    rw [pyContains, hv'] at hc
    cases hc

theorem freshD_sentinel_none (d : PyDict) (hf : Storage.freshD d = true) :
    pyLookup d Storage.READ_ORDER_KEY = none
      ∧ pyLookup d Storage.LONGEST_KEY = none := by
  constructor
  · cases h : pyLookup d Storage.READ_ORDER_KEY with
    | none => rfl
    | some v =>
      obtain ⟨hwf, _⟩ := freshD_lookup d _ v hf h
      obtain ⟨_, _, _, _, _, hne, _⟩ := wfKeyB_spec _ hwf
      exact absurd rfl hne
  · cases h : pyLookup d Storage.LONGEST_KEY with
    | none => rfl
    | some v =>
      obtain ⟨hwf, _⟩ := freshD_lookup d _ v hf h
      obtain ⟨_, _, _, _, _, _, hne⟩ := wfKeyB_spec _ hwf
      exact absurd rfl hne

theorem freshD_pubKeys (d : PyDict) (hf : Storage.freshD d = true) :
    Storage.pubKeys d = pyKeys d := by
  rw [Storage.pubKeys]
  refine List.filter_eq_self.mpr ?_
  intro k hk
  obtain ⟨v, hv⟩ := mem_keys_lookup d k hk
  obtain ⟨hwf, _⟩ := freshD_lookup d k v hf hv
  obtain ⟨_, _, _, _, _, hne1, hne2⟩ := wfKeyB_spec _ hwf
  simp [hne1, hne2]

theorem computeLongest_fresh (d : PyDict) (hf : Storage.freshD d = true) :
    Storage.computeLongest d = .ok ((Storage.maxPubKeyLen d : Nat) : Int) := by
  simp only [Storage.computeLongest.eq_def, (freshD_sentinel_none d hf).2]
  rw [show (0 : Int) = ((0 : Nat) : Int) from rfl, foldl_max_int_nat]
  rfl

theorem computeOrder_fresh (d : PyDict) (hf : Storage.freshD d = true) :
    Storage.computeOrder d = .ok (strSort (pyKeys d)) := by
  simp only [Storage.computeOrder.eq_def, (freshD_sentinel_none d hf).1]
  rw [List.erase_of_not_mem]
  intro hmem
  obtain ⟨v, hv⟩ := mem_keys_lookup d _ (mem_strSort.mp hmem)
  obtain ⟨hwf, _⟩ := freshD_lookup d _ v hf hv
  obtain ⟨_, _, _, _, _, _, hne⟩ := wfKeyB_spec _ hwf
  exact absurd rfl hne

theorem foldl_max_len_init_le : ∀ (ks : List PyStr) (n : Nat),
    n ≤ ks.foldl (fun a k => max a k.length) n
  | [], n => Nat.le_refl n
  | k :: ks, n => by
    rw [List.foldl_cons]
    exact le_trans (le_max_left n k.length) (foldl_max_len_init_le ks _)

theorem foldl_max_len_mem_le : ∀ (ks : List PyStr) (n : Nat) (k : PyStr), k ∈ ks →
    k.length ≤ ks.foldl (fun a k => max a k.length) n
  | [], _, _, h => absurd h (List.not_mem_nil _)
  | k0 :: ks, n, k, h => by
    rw [List.foldl_cons]
    rcases List.mem_cons.mp h with rfl | h
    · exact le_trans (le_max_right n k.length) (foldl_max_len_init_le ks _)
    · exact foldl_max_len_mem_le ks _ k h

theorem le_maxPubKeyLen (d : PyDict) (k : PyStr) (hk : k ∈ Storage.pubKeys d) :
    k.length ≤ Storage.maxPubKeyLen d :=
  foldl_max_len_mem_le (Storage.pubKeys d) 0 k hk

theorem pyLookup_mapValsLoad : ∀ (d : PyDict) (k : PyStr),
    pyLookup (Storage.mapValsLoad d) k = (pyLookup d k).map Storage.loadVal
  | .nil, _ => rfl
  | .cons k0 v d, k => by
    rw [Storage.mapValsLoad]
    by_cases h : k0 = k <;> simp [pyLookup, h, pyLookup_mapValsLoad d k]

theorem pyKeys_mapValsLoad : ∀ (d : PyDict),
    pyKeys (Storage.mapValsLoad d) = pyKeys d
  | .nil => rfl
  | .cons k0 v d => by
    rw [Storage.mapValsLoad, pyKeys, pyKeys, pyKeys_mapValsLoad d]

theorem pubKeys_mapValsLoad (d : PyDict) :
    Storage.pubKeys (Storage.mapValsLoad d) = Storage.pubKeys d := by
  rw [Storage.pubKeys, Storage.pubKeys, pyKeys_mapValsLoad]

theorem maxPubKeyLen_mapValsLoad (d : PyDict) :
    Storage.maxPubKeyLen (Storage.mapValsLoad d) = Storage.maxPubKeyLen d := by
  rw [Storage.maxPubKeyLen, Storage.maxPubKeyLen, pubKeys_mapValsLoad]

theorem entriesLoaded_eq_reorderBy : ∀ (ks : List PyStr) (d : PyDict),
    Storage.entriesLoaded d ks = Storage.reorderBy ks (Storage.mapValsLoad d)
  | [], _ => rfl
  | k :: ks, d => by
    simp only [Storage.entriesLoaded, Storage.reorderBy, pyLookup_mapValsLoad]
    cases pyLookup d k <;> simp [entriesLoaded_eq_reorderBy ks d]

theorem appendD_nil : ∀ (d : PyDict), Storage.appendD d .nil = d
  | .nil => rfl
  | .cons k v d => by rw [Storage.appendD, appendD_nil d]

theorem appendD_assoc : ∀ (a b c : PyDict),
    Storage.appendD (Storage.appendD a b) c = Storage.appendD a (Storage.appendD b c)
  | .nil, _, _ => rfl
  | .cons k v a, b, c => by
    rw [Storage.appendD, Storage.appendD, Storage.appendD, appendD_assoc a b c]

theorem pyInsert_not_contains : ∀ (d : PyDict) (k : PyStr) (v : PyVal),
    pyContains d k = false → pyInsert d k v = Storage.appendD d (.cons k v .nil)
  | .nil, _, _, _ => rfl
  | .cons k0 v0 d, k, v, h => by
    rw [pyContains, pyLookup] at h
    by_cases he : k0 = k
    · rw [if_pos he] at h
      simp at h
    · rw [if_neg he] at h
      rw [pyInsert, if_neg he, Storage.appendD, pyInsert_not_contains d k v h]

theorem pyContains_pyInsert_ne (d : PyDict) (k k' : PyStr) (v : PyVal) (h : k ≠ k') :
    pyContains (pyInsert d k v) k' = pyContains d k' := by
  rw [pyContains, pyContains, pyLookup_pyInsert_ne d k k' v h]

theorem mem_keys_entriesLoaded : ∀ (ks : List PyStr) (d : PyDict) (k : PyStr),
    k ∈ pyKeys (Storage.entriesLoaded d ks) → k ∈ ks
  | [], _, _, h => absurd h (by simp [Storage.entriesLoaded, pyKeys])
  | k0 :: ks, d, k, h => by
    simp only [Storage.entriesLoaded] at h
    rcases hl : pyLookup d k0 with _ | v <;> rw [hl] at h
    · exact List.mem_cons_of_mem k0 (mem_keys_entriesLoaded ks d k h)
    · rw [pyKeys, List.mem_cons] at h
      rcases h with rfl | h
      · exact List.mem_cons_self k _
      · exact List.mem_cons_of_mem k0 (mem_keys_entriesLoaded ks d k h)

theorem foldl_max_const : ∀ (order : List PyStr) (L a : Nat),
    order.foldl (fun x _ => max x L) a = if order.isEmpty then a else max a L
  | [], _, _ => rfl
  | k :: ks, L, a => by
    rw [List.foldl_cons, foldl_max_const ks L (max a L)]
    cases hks : ks.isEmpty <;> simp [max_assoc]

end C1FreshDicts

section C1MainInduction

theorem pyListConcat_lnil : ∀ (acc : PyList), Storage.pyListConcat acc .lnil = acc
  | .lnil => rfl
  | .lcons d l => by rw [Storage.pyListConcat, pyListConcat_lnil l]

theorem pyListConcat_append : ∀ (acc : PyList) (x : PyDict) (y : PyList),
    Storage.pyListConcat (pyListAppend acc x) y = Storage.pyListConcat acc (.lcons x y)
  | .lnil, _, _ => rfl
  | .lcons d l, x, y => by
    rw [pyListAppend, Storage.pyListConcat, Storage.pyListConcat,
      pyListConcat_append l x y]

theorem freshL_cons_spec {d : PyDict} {l : PyList}
    (h : Storage.freshL (.lcons d l) = true) :
    Storage.freshD d = true ∧ Storage.freshL l = true := by
  rw [Storage.freshL] at h
  simpa [Bool.and_eq_true] using h

theorem rt_set_zero : Storage.RT_set 0 := by
  intro ind d ls _ hw
  rw [Storage.writeSetF] at hw
  cases hw

theorem rt_keys_zero : Storage.RT_keys 0 := by
  intro ind longest d order ls _ _ _ _ hw
  rw [Storage.writeKeysF] at hw
  cases hw

theorem rt_list_zero : Storage.RT_list 0 := by
  intro ind l ls _ hw
  rw [Storage.writeListF] at hw
  cases hw

theorem rt_set_step (wf : Nat) (ihkeys : Storage.RT_keys wf) :
    Storage.RT_set (wf + 1) := by
  intro ind d ls hf hw
  rw [Storage.writeSetF, computeLongest_fresh d hf, computeOrder_fresh d hf] at hw
  simp only [bind, Except.bind, pure, Except.pure] at hw
  cases hwk : Storage.writeKeysF wf ind ((Storage.maxPubKeyLen d : Nat) : Int) d
      (strSort (pyKeys d)) with
  | error e =>
    rw [hwk] at hw
    cases hw
  | ok body =>
    rw [hwk] at hw
    obtain rfl : ls = body ++ [Storage.termLine ind] := by
      cases hw
      rfl
    have hordmem : ∀ k ∈ strSort (pyKeys d), ∃ v, pyLookup d k = some v
        ∧ Storage.freshV v = true := by
      intro k hk
      obtain ⟨v, hv⟩ := mem_keys_lookup d k (mem_strSort.mp hk)
      exact ⟨v, hv, (freshD_lookup d k v hf hv).2⟩
    have hordwf : ∀ k ∈ strSort (pyKeys d), Storage.wfKeyB k = true := by
      intro k hk
      obtain ⟨v, hv, _⟩ := hordmem k hk
      exact (freshD_lookup d k v hf hv).1
    have hordlen : ∀ k ∈ strSort (pyKeys d),
        (k.length : Int) ≤ ((Storage.maxPubKeyLen d : Nat) : Int) := by
      intro k hk
      have : k.length ≤ Storage.maxPubKeyLen d := by
        refine le_maxPubKeyLen d k ?_
        rw [freshD_pubKeys d hf]
        exact mem_strSort.mp hk
      exact_mod_cast this
    obtain ⟨hhead, hread⟩ := ihkeys ind ((Storage.maxPubKeyLen d : Nat) : Int) d
      (strSort (pyKeys d)) body hordwf hordmem hordlen
      (strSort_nodup (freshD_keys_nodup d hf)) hwk
    refine ⟨by simp, ?_, ?_⟩
    · intro l0 t hlt
      cases body with
      | nil =>
        rw [List.nil_append] at hlt
        cases hlt
        exact pyIndent_termLine ind
      | cons b0 bt =>
        rw [List.cons_append] at hlt
        cases hlt
        exact hhead l0 bt rfl
    · intro rfuel rest hlen
      rw [List.append_assoc, List.singleton_append]
      have hseed : ∀ k ∈ strSort (pyKeys d),
          pyContains (pyInsert .nil Storage.READ_ORDER_KEY (.vkeys [])) k = false := by
        intro k hk
        obtain ⟨_, _, _, _, _, hne, _⟩ := wfKeyB_spec k (hordwf k hk)
        rw [show pyInsert .nil Storage.READ_ORDER_KEY (.vkeys [])
          = .cons Storage.READ_ORDER_KEY (.vkeys []) .nil from rfl]
        rw [pyContains, pyLookup, if_neg (fun hc => hne hc.symm)]
        rfl
      rw [hread rfuel rest _ [] 0
        (Nat.lt_of_lt_of_le (by simp) hlen)
        hseed]
      congr 1
      congr 1
      · rw [show pyInsert .nil Storage.READ_ORDER_KEY (.vkeys [])
          = .cons Storage.READ_ORDER_KEY (.vkeys []) .nil from rfl]
        rw [show Storage.appendD (.cons Storage.READ_ORDER_KEY (.vkeys []) .nil)
            (Storage.entriesLoaded d (strSort (pyKeys d)))
          = .cons Storage.READ_ORDER_KEY (.vkeys [])
            (Storage.entriesLoaded d (strSort (pyKeys d))) from rfl]
        rw [Storage.readFinish]
        rw [show pyInsert (.cons Storage.READ_ORDER_KEY (.vkeys [])
            (Storage.entriesLoaded d (strSort (pyKeys d))))
            Storage.READ_ORDER_KEY (.vkeys ([] ++ strSort (pyKeys d)))
          = .cons Storage.READ_ORDER_KEY (.vkeys ([] ++ strSort (pyKeys d)))
            (Storage.entriesLoaded d (strSort (pyKeys d))) by
            rw [pyInsert, if_pos rfl]]
        have hELc : pyContains (Storage.entriesLoaded d (strSort (pyKeys d)))
            Storage.LONGEST_KEY = false := by
          cases hc : pyContains (Storage.entriesLoaded d (strSort (pyKeys d)))
              Storage.LONGEST_KEY with
          | false => rfl
          | true =>
            rw [pyContains] at hc
            cases hl : pyLookup (Storage.entriesLoaded d (strSort (pyKeys d)))
                Storage.LONGEST_KEY with
            | none => rw [hl] at hc; cases hc
            | some v =>
              have hmem := lookup_mem_keys _ _ _ hl
              have := mem_keys_entriesLoaded _ d _ hmem
              obtain ⟨_, _, _, _, _, _, hne⟩ :=
                wfKeyB_spec _ (hordwf Storage.LONGEST_KEY this)
              exact absurd rfl hne
        rw [pyInsert, if_neg (by decide),
          pyInsert_not_contains _ _ _ hELc]
        rw [Storage.loadify, Storage.sentinelize, pyKeys_mapValsLoad,
          maxPubKeyLen_mapValsLoad, ← entriesLoaded_eq_reorderBy]
        rw [List.nil_append]
        congr 2
        rw [foldl_max_const]
        cases hord : (strSort (pyKeys d)).isEmpty with
        | true =>
          have : pyKeys d = [] := by
            have hperm := strSort_perm (pyKeys d)
            rw [List.isEmpty_iff] at hord
            rw [hord] at hperm
            exact (List.Perm.nil_eq hperm).symm
          rw [if_pos rfl]
          rw [show Storage.maxPubKeyLen d
            = (Storage.pubKeys d).foldl (fun acc k => max acc k.length) 0 from rfl]
          rw [freshD_pubKeys d hf, this]
          rfl
        | false =>
          rw [if_neg (by simp)]
          rw [show (((Storage.maxPubKeyLen d : Nat) : Int)).toNat
            = Storage.maxPubKeyLen d by omega]
          rw [Nat.zero_max]

theorem rt_list_step (wf : Nat) (ihset : Storage.RT_set wf)
    (ihlist : Storage.RT_list wf) : Storage.RT_list (wf + 1) := by
  intro ind l ls hf hw
  cases l with
  | lnil =>
    rw [Storage.writeListF] at hw
    obtain rfl : ls = [] := by
      simp only [pure, Except.pure] at hw
      cases hw
      rfl
    refine ⟨?_, ?_⟩
    · intro l0 t h
      cases h
    intro rfuel rest acc hlen hrest
    obtain ⟨rf, rfl⟩ : ∃ rf, rfuel = rf + 1 := ⟨rfuel - 1, by omega⟩
    rw [List.nil_append, Storage.loadList, pyListConcat_lnil]
    cases rest with
    | nil =>
      rw [Storage.readListF]
      rfl
    | cons r0 t =>
      rcases hrest with h | h
      · cases h
      · rw [Storage.readListF, if_pos (h r0 t rfl)]
        rfl
  | lcons d l2 =>
    rw [Storage.writeListF] at hw
    simp only [bind, Except.bind, pure, Except.pure] at hw
    cases hws : Storage.writeSetF wf ind d with
    | error e =>
      rw [hws] at hw
      cases hw
    | ok a =>
      rw [hws] at hw
      cases hwl : Storage.writeListF wf ind l2 with
      | error e =>
        rw [hwl] at hw
        cases hw
      | ok b =>
        rw [hwl] at hw
        obtain rfl : ls = a ++ b := by
          cases hw
          rfl
        obtain ⟨hfd, hfl⟩ := freshL_cons_spec hf
        obtain ⟨hane, hahead, haread⟩ := ihset ind d a hfd hws
        obtain ⟨hbhead, hbread⟩ := ihlist ind l2 b hfl hwl
        obtain ⟨a0, at0, rfl⟩ : ∃ a0 at0, a = a0 :: at0 := by
          cases a with
          | nil => exact absurd rfl hane
          | cons x xs => exact ⟨x, xs, rfl⟩
        have ha0 : pyIndent a0 = ind := hahead a0 at0 rfl
        constructor
        · intro l0 t hlt
          rw [List.cons_append] at hlt
          cases hlt
          exact ha0
        · intro rfuel rest acc hlen hrest
          obtain ⟨rf, rfl⟩ : ∃ rf, rfuel = rf + 1 := ⟨rfuel - 1, by omega⟩
          have hlen' : at0.length + 1 + b.length ≤ rf := by
            simp only [List.cons_append, List.length_cons, List.length_append] at hlen
            omega
          rw [List.cons_append, List.cons_append, List.append_assoc,
            Storage.readListF, if_neg (by rw [ha0]; exact fun hc => hc rfl)]
          rw [show a0 :: (at0 ++ (b ++ rest)) = (a0 :: at0) ++ (b ++ rest) from rfl]
          rw [haread rf (b ++ rest) (by simp only [List.length_cons]; omega)]
          exact (hbread rf rest (pyListAppend acc (Storage.loadify d))
              (by omega) hrest).trans
            (by rw [pyListConcat_append, Storage.loadList, Storage.loadify])

theorem valInline_fresh_no_nl : ∀ (v : PyVal), Storage.freshV v = true →
    '\n' ∉ Storage.valInline v
  | .vstr s, _ => by
    rw [Storage.valInline]
    by_cases hs : (s.contains '\n' || s.contains '\r') = true
    · rw [if_pos hs]
      simp
    · rw [if_neg hs]
      intro hmem
      apply hs
      rw [Bool.or_eq_true]
      exact Or.inl (List.elem_iff.mpr hmem)
  | .vdict _, _ => by
    intro h
    cases h
  | .vlist _, _ => by
    intro h
    cases h
  | .vkeys _, h => by simp [Storage.freshV] at h
  | .vint _, h => by simp [Storage.freshV] at h
  | .vfloat _, h => by simp [Storage.freshV] at h
  | .vsetObj _, h => by simp [Storage.freshV] at h

theorem appendD_pyInsert (acc : PyDict) (k : PyStr) (x : PyVal) (E : PyDict)
    (h : pyContains acc k = false) :
    Storage.appendD (pyInsert acc k x) E = Storage.appendD acc (.cons k x E) := by
  rw [pyInsert_not_contains acc k x h, appendD_assoc]
  rfl

theorem rt_keys_step (wf : Nat) (ihkeys : Storage.RT_keys wf)
    (ihset : ∀ m, m < wf → Storage.RT_set m)
    (ihlist : ∀ m, m < wf → Storage.RT_list m) :
    Storage.RT_keys (wf + 1) := by
  intro ind longest d order ls hwf hmem hlen hnd hw
  cases order with
  | nil =>
    rw [Storage.writeKeysF] at hw
    obtain rfl : ls = [] := by
      simp only [pure, Except.pure] at hw
      cases hw
      rfl
    refine ⟨?_, ?_⟩
    · intro l0 t h
      cases h
    · intro rfuel rest acc ro accL hrf _hacc
      obtain ⟨rf, rfl⟩ : ∃ rf, rfuel = rf + 1 := ⟨rfuel - 1, by omega⟩
      rw [List.nil_append, Storage.readSetLoop,
        if_neg (by rw [pyIndent_termLine]; exact fun hc => hc rfl)]
      simp only [termLine_proc]
      rw [if_pos trivial]
      simp only [Storage.entriesLoaded, appendD_nil, List.append_nil, List.foldl_nil]
      rfl
  | cons k ks =>
    rw [Storage.writeKeysF] at hw
    obtain ⟨v, hv, hfv⟩ := hmem k (List.mem_cons_self k ks)
    rw [hv] at hw
    simp only [bind, Except.bind, pure, Except.pure] at hw
    cases hwc : Storage.writeChildF wf ind v with
    | error e =>
      rw [hwc] at hw
      cases hw
    | ok children =>
      rw [hwc] at hw
      cases hwr : Storage.writeKeysF wf ind longest d ks with
      | error e =>
        rw [hwr] at hw
        cases hw
      | ok rest_ls =>
        rw [hwr] at hw
        obtain rfl : ls = Storage.entryLine ind longest k v :: (children ++ rest_ls) := by
          cases hw
          rfl
        obtain ⟨wf2, rfl⟩ : ∃ wf2, wf = wf2 + 1 := by
          cases wf with
          | zero =>
            rw [Storage.writeChildF] at hwc
            cases hwc
          | succ n => exact ⟨n, rfl⟩
        have hkw : Storage.wfKeyB k = true := hwf k (List.mem_cons_self k ks)
        have hkl : (k.length : Int) ≤ longest := hlen k (List.mem_cons_self k ks)
        obtain ⟨hkshead, hksread⟩ := ihkeys ind longest d ks rest_ls
          (fun k' h => hwf k' (List.mem_cons_of_mem _ h))
          (fun k' h => hmem k' (List.mem_cons_of_mem _ h))
          (fun k' h => hlen k' (List.mem_cons_of_mem _ h))
          (List.nodup_cons.mp hnd).2 hwr
        refine ⟨?_, ?_⟩
        · intro l0 t hlt
          cases hlt
          exact entryLine_indent ind longest k v hkw
        · intro rfuel rest acc ro accL hrf hacc
          obtain ⟨rf, rfl⟩ : ∃ rf, rfuel = rf + 1 := ⟨rfuel - 1, by omega⟩
          have hrl : rest_ls.length < rf := by
            simp only [List.length_cons, List.length_append] at hrf
            omega
          have hch : children.length < rf := by
            simp only [List.length_cons, List.length_append] at hrf
            omega
          have hdat : '\n' ∉ Storage.valInline v := valInline_fresh_no_nl v hfv
          have hacc' : ∀ k' ∈ ks,
              pyContains (pyInsert acc k (Storage.loadVal v)) k' = false := by
            intro k' hk'
            have hne : k ≠ k' := by
              rintro rfl
              exact (List.nodup_cons.mp hnd).1 hk'
            rw [pyContains_pyInsert_ne acc k k' _ hne]
            exact hacc k' (List.mem_cons_of_mem _ hk')
          have hcont : Storage.readSetLoop rf ind
              (rest_ls ++ Storage.termLine ind :: rest)
              (pyInsert acc k (Storage.loadVal v)) (ro ++ [k]) (max accL longest.toNat)
            = .ok (Storage.readFinish
                (Storage.appendD acc (Storage.entriesLoaded d (k :: ks)))
                (ro ++ k :: ks)
                ((k :: ks).foldl (fun a _ => max a longest.toNat) accL), rest) := by
            rw [hksread rf rest _ (ro ++ [k]) (max accL longest.toNat) hrl hacc']
            simp only [Storage.entriesLoaded, hv, List.foldl_cons]
            rw [appendD_pyInsert acc k (Storage.loadVal v) _
              (hacc k (List.mem_cons_self k ks))]
            rw [List.append_assoc, List.singleton_append]
          have hterm : ∀ r0 t, rest_ls ++ Storage.termLine ind :: rest = r0 :: t →
              pyIndent r0 = ind := by
            intro r0 t hr
            cases rest_ls with
            | nil =>
              rw [List.nil_append] at hr
              cases hr
              exact pyIndent_termLine ind
            | cons x xs =>
              rw [List.cons_append] at hr
              cases hr
              exact hkshead r0 xs rfl
          rw [List.cons_append, List.append_assoc, Storage.readSetLoop,
            if_neg (by rw [entryLine_indent ind longest k v hkw]; exact fun hc => hc rfl)]
          simp only [entryLine_proc ind longest k v hkw hdat]
          rw [if_neg (entryLine_ne_term longest k v hkw)]
          simp only [entryLine_split longest k v hkw, padKey_strip longest k hkw,
            padKey_lstrip_length longest k hkw hkl]
          cases v with
          | vstr s =>
            simp only [Storage.writeChildF] at hwc
            by_cases hs : (s.contains '\n' || s.contains '\r') = true
            · obtain rfl : children
                  = Storage.writeStringLines (ind + Storage.INDENT_RATE) s := by
                rw [if_pos hs] at hwc
                simp only [pure, Except.pure] at hwc
                cases hwc
                rfl
              have hm : Storage.valMarker (.vstr s) = '~' := by
                rw [Storage.valMarker, if_pos hs]
              rw [hm, if_neg (by decide), if_neg (by decide), if_pos rfl]
              simp only [bind, Except.bind]
              rw [readString_of_write (ind + Storage.INDENT_RATE) s
                (rest_ls ++ Storage.termLine ind :: rest) rf hch
                (fun r0 t hr => by
                  rw [hterm r0 t hr]
                  show ind < ind + 2
                  omega)]
              exact hcont
            · obtain rfl : children = [] := by
                rw [if_neg hs] at hwc
                simp only [pure, Except.pure] at hwc
                cases hwc
                rfl
              have hm : Storage.valMarker (.vstr s) = ' ' := by
                rw [Storage.valMarker, if_neg hs]
              have hi : Storage.valInline (.vstr s) = s := by
                rw [Storage.valInline, if_neg hs]
              rw [hm, hi, if_pos rfl, List.nil_append]
              exact hcont
          | vdict d2 =>
            simp only [Storage.writeChildF] at hwc
            have hfd2 : Storage.freshD d2 = true := by
              rw [Storage.freshV] at hfv
              exact hfv
            obtain ⟨-, -, hdread⟩ := ihset wf2 (Nat.lt_succ_self wf2)
              (ind + Storage.INDENT_RATE) d2 children hfd2 hwc
            rw [show Storage.valMarker (.vdict d2) = '-' from rfl,
              if_neg (by decide), if_neg (by decide), if_neg (by decide), if_pos rfl]
            simp only [bind, Except.bind]
            rw [hdread rf (rest_ls ++ Storage.termLine ind :: rest) (Nat.le_of_lt hch)]
            exact hcont
          | vlist l2 =>
            simp only [Storage.writeChildF] at hwc
            have hfl2 : Storage.freshL l2 = true := by
              rw [Storage.freshV] at hfv
              exact hfv
            obtain ⟨-, hlread⟩ := ihlist wf2 (Nat.lt_succ_self wf2)
              (ind + Storage.INDENT_RATE) l2 children hfl2 hwc
            rw [show Storage.valMarker (.vlist l2) = '=' from rfl,
              if_neg (by decide), if_pos rfl]
            simp only [bind, Except.bind]
            rw [hlread rf (rest_ls ++ Storage.termLine ind :: rest) .lnil hch
              (Or.inr (fun r0 t hr => by
                rw [hterm r0 t hr]
                show ¬ ind = ind + 2
                omega))]
            exact hcont
          | vint n => simp [Storage.freshV] at hfv
          | vfloat t => simp [Storage.freshV] at hfv
          | vkeys w => simp [Storage.freshV] at hfv
          | vsetObj o => simp [Storage.freshV] at hfv

theorem roundtrip_all : ∀ wfuel,
    Storage.RT_set wfuel ∧ Storage.RT_keys wfuel ∧ Storage.RT_list wfuel := by
  intro wfuel
  induction wfuel using Nat.strong_induction_on with
  | _ n ih =>
    cases n with
    | zero => exact ⟨rt_set_zero, rt_keys_zero, rt_list_zero⟩
    | succ m =>
      have hprev := ih m (Nat.lt_succ_self m)
      refine ⟨rt_set_step m hprev.2.1, ?_, rt_list_step m hprev.1 hprev.2.2⟩
      exact rt_keys_step m hprev.2.1
        (fun j hj => (ih j (Nat.lt_trans hj (Nat.lt_succ_self m))).1)
        (fun j hj => (ih j (Nat.lt_trans hj (Nat.lt_succ_self m))).2.2)

end C1MainInduction

section C1Claims

theorem pyKeys_appendD : ∀ (a b : PyDict),
    pyKeys (Storage.appendD a b) = pyKeys a ++ pyKeys b
  | .nil, _ => rfl
  | .cons k v a, b => by
    rw [Storage.appendD, pyKeys, pyKeys, pyKeys_appendD a b]
    rfl

theorem pyKeys_reorderBy : ∀ (ks : List PyStr) (m : PyDict),
    (∀ k ∈ ks, pyContains m k = true) →
    pyKeys (Storage.reorderBy ks m) = ks
  | [], _, _ => rfl
  | k :: ks, m, h => by
    have hc := h k (List.mem_cons_self k ks)
    rw [pyContains] at hc
    cases hl : pyLookup m k with
    | none =>
      rw [hl] at hc
      simp at hc
    | some v =>
      simp only [Storage.reorderBy, hl]
      rw [pyKeys, pyKeys_reorderBy ks m (fun k' h' => h k' (List.mem_cons_of_mem _ h'))]

theorem pyLookup_appendD_some : ∀ (a b : PyDict) (k : PyStr) (v : PyVal),
    pyLookup a k = some v → pyLookup (Storage.appendD a b) k = some v
  | .nil, _, _, _, h => by
    rw [pyLookup] at h
    cases h
  | .cons k0 w a, b, k, v, h => by
    rw [pyLookup] at h
    rw [Storage.appendD, pyLookup]
    by_cases he : k0 = k
    · rwa [if_pos he] at h ⊢
    · rw [if_neg he] at h ⊢
      exact pyLookup_appendD_some a b k v h

theorem pyLookup_entriesLoaded : ∀ (ks : List PyStr) (d : PyDict) (k : PyStr) (v : PyVal),
    k ∈ ks → pyLookup d k = some v →
    pyLookup (Storage.entriesLoaded d ks) k = some (Storage.loadVal v)
  | [], _, _, _, hmem, _ => absurd hmem (by simp)
  | k0 :: ks, d, k, v, hmem, hv => by
    by_cases he : k0 = k
    · subst he
      simp only [Storage.entriesLoaded, hv]
      rw [pyLookup, if_pos rfl]
    · have hmem' : k ∈ ks := (List.mem_cons.mp hmem).resolve_left (fun h => he h.symm)
      cases hl : pyLookup d k0 with
      | none =>
        simp only [Storage.entriesLoaded, hl]
        exact pyLookup_entriesLoaded ks d k v hmem' hv
      | some w =>
        simp only [Storage.entriesLoaded, hl]
        rw [pyLookup, if_neg he]
        exact pyLookup_entriesLoaded ks d k v hmem' hv

theorem pyLookup_loadify_vstr (d : PyDict) (k : PyStr) (s : PyStr)
    (hf : Storage.freshD d = true) (hv : pyLookup d k = some (.vstr s)) :
    pyLookup (Storage.loadify d) k = some (.vstr s) := by
  have hkw := (freshD_lookup d k _ hf hv).1
  obtain ⟨-, -, -, -, -, hro, -⟩ := wfKeyB_spec k hkw
  rw [Storage.loadify, Storage.sentinelize, pyLookup,
    if_neg (fun hc => hro hc.symm), ← entriesLoaded_eq_reorderBy]
  exact pyLookup_appendD_some _ _ k _ (pyLookup_entriesLoaded _ d k _
    (by rw [pyKeys_mapValsLoad, mem_strSort]; exact lookup_mem_keys d k _ hv) hv)

/-- **C1 counterexample.** The set `{b: 1, a: 2}` built in insertion order
`b, a` is fresh, its public key iteration reads `b, a`, yet the set
produced by writing it and loading the written lines iterates its public
keys as `a, b`: the write→load round trip does not preserve the key
order of a never-loaded set (it sorts the keys), contradicting the
claim's "same key order". -/
theorem c1_counterexample :
    Storage.freshD (.cons ("b".toList) (.vstr ("1".toList))
        (.cons ("a".toList) (.vstr ("2".toList)) .nil)) = true
    ∧ Storage.pubKeys (.cons ("b".toList) (.vstr ("1".toList))
        (.cons ("a".toList) (.vstr ("2".toList)) .nil)) = ["b".toList, "a".toList]
    ∧ (Storage.loadOfWrite 5 (.cons ("b".toList) (.vstr ("1".toList))
        (.cons ("a".toList) (.vstr ("2".toList)) .nil))).map Storage.pubKeys
      = some ["a".toList, "b".toList] := by
  refine ⟨?_, ?_, ?_⟩ <;> rfl

/-- **C1** (amended round trip). For every fresh StorageSet `d` (well-formed
keys, scalar string / nested set / list values) whose write succeeds at any
fuel, loading the written lines back succeeds and produces exactly
`loadify d`: the loaded set has the same public keys as the original —
as a multiset (permutation) — and every string-valued entry keeps its
value, but the loaded set's public key iteration order is the sorted key
order, not the original insertion order. -/
theorem c1_roundtrip (d : PyDict) (fuel : Nat) (ls : List PyStr)
    (hf : Storage.freshD d = true)
    (hw : Storage.writeSetF fuel 0 d = .ok ls) :
    Storage.readSetF (ls.length + 1) 0 ls .nil = .ok (Storage.loadify d, [])
    ∧ Storage.loadOfWrite fuel d = some (Storage.loadify d)
    ∧ Storage.pubKeys (Storage.loadify d) = strSort (pyKeys d)
    ∧ (Storage.pubKeys (Storage.loadify d)).Perm (Storage.pubKeys d)
    ∧ (∀ k s, pyLookup d k = some (.vstr s) →
        pyLookup (Storage.loadify d) k = some (.vstr s)) := by
  obtain ⟨-, -, hread⟩ := (roundtrip_all fuel).1 0 d ls hf hw
  have h1 : Storage.readSetF (ls.length + 1) 0 ls .nil
      = .ok (Storage.loadify d, []) := by
    have := hread (ls.length + 1) [] (Nat.le_succ _)
    rw [List.append_nil] at this
    rw [Storage.readSetF]
    exact this
  have h3 : Storage.pubKeys (Storage.loadify d) = strSort (pyKeys d) := by
    have hall : ∀ k ∈ strSort (pyKeys (Storage.mapValsLoad d)),
        pyContains (Storage.mapValsLoad d) k = true := by
      intro k hk
      obtain ⟨v, hv⟩ := mem_keys_lookup _ k (mem_strSort.mp hk)
      rw [pyContains, hv]
      rfl
    have hkeep : ∀ k ∈ strSort (pyKeys d),
        (¬(k = Storage.READ_ORDER_KEY) && ¬(k = Storage.LONGEST_KEY)) = true := by
      intro k hk
      obtain ⟨w, hw'⟩ := mem_keys_lookup d k (mem_strSort.mp hk)
      obtain ⟨-, -, -, -, -, hro, hlk⟩ :=
        wfKeyB_spec k (freshD_lookup d k w hf hw').1
      simp [hro, hlk]
    rw [Storage.loadify, Storage.sentinelize, Storage.pubKeys, pyKeys,
      pyKeys_appendD, pyKeys_reorderBy _ _ hall, pyKeys_mapValsLoad, pyKeys, pyKeys]
    rw [List.filter_cons_of_neg (by decide), List.filter_append,
      List.filter_cons_of_neg (by decide), List.filter_nil, List.append_nil]
    exact List.filter_eq_self.mpr hkeep
  refine ⟨h1, ?_, h3, ?_, ?_⟩
  · simp only [Storage.loadOfWrite, hw, h1]
  · rw [h3, freshD_pubKeys d hf]
    exact strSort_perm (pyKeys d)
  · intro k s hv
    exact pyLookup_loadify_vstr d k s hf hv

/-- **C1 witness.** The amended round trip instantiated on the concrete
fresh set `{k: v}`, whose written form is the two lines `k: v` and `-`. -/
theorem c1_roundtrip_witness :
    Storage.freshD (.cons ("k".toList) (.vstr ("v".toList)) .nil) = true
    ∧ Storage.writeSetF 3 0 (.cons ("k".toList) (.vstr ("v".toList)) .nil)
      = .ok ["k: v".toList, "-".toList]
    ∧ (Storage.readSetF (["k: v".toList, "-".toList].length + 1) 0
          ["k: v".toList, "-".toList] .nil
        = .ok (Storage.loadify (.cons ("k".toList) (.vstr ("v".toList)) .nil), [])
      ∧ Storage.loadOfWrite 3 (.cons ("k".toList) (.vstr ("v".toList)) .nil)
        = some (Storage.loadify (.cons ("k".toList) (.vstr ("v".toList)) .nil))
      ∧ Storage.pubKeys (Storage.loadify (.cons ("k".toList) (.vstr ("v".toList)) .nil))
        = strSort (pyKeys (.cons ("k".toList) (.vstr ("v".toList)) .nil))
      ∧ (Storage.pubKeys
            (Storage.loadify (.cons ("k".toList) (.vstr ("v".toList)) .nil))).Perm
          (Storage.pubKeys (.cons ("k".toList) (.vstr ("v".toList)) .nil))
      ∧ (∀ k s, pyLookup (.cons ("k".toList) (.vstr ("v".toList)) .nil) k
            = some (.vstr s) →
          pyLookup (Storage.loadify (.cons ("k".toList) (.vstr ("v".toList)) .nil)) k
            = some (.vstr s))) :=
  ⟨rfl, rfl, c1_roundtrip (.cons ("k".toList) (.vstr ("v".toList)) .nil) 3
    ["k: v".toList, "-".toList] rfl rfl⟩

end C1Claims

end NakedSun
